import Mathlib

set_option autoImplicit false

/-!
Verification development for the `ptodo` task manager.

Python strings are modelled as lists of characters (`PyStr`), Python `set[str]`
as a strictly sorted duplicate-free list (the canonical representative of the
set, matching `sorted(...)` used at serialization time), and Python
`dict[str, str]` as an association list strictly sorted by key (the canonical
representative of the dict under extensional equality; `sorted(d.items())` is
used at serialization time).  Dates are triples of numerals as in
`datetime.date`, valid per the proleptic Gregorian calendar.

All definitions are transcribed from `src/ptodo/serda.py`,
`src/ptodo/core/core.py` and `src/ptodo/git_service.py`.
-/

namespace Ptodo

/-- Python strings as character lists. -/
abbrev PyStr := List Char

/-- The whitespace characters stripped by Python's `str.strip()`
(restricted to the ASCII whitespace set). -/
def isWSChar (c : Char) : Bool :=
  c = ' ' || c = '\t' || c = '\n' || c = '\r' || c = '\x0b' || c = '\x0c'

/-- Drop leading whitespace (the left half of `str.strip()`). -/
def stripLeft : PyStr → PyStr
  | [] => []
  | c :: rest => if isWSChar c then stripLeft rest else c :: rest

/-- Drop trailing whitespace (the right half of `str.strip()`). -/
def stripRight (s : PyStr) : PyStr :=
  (stripLeft s.reverse).reverse

/-- Python `str.strip()`. -/
def strip (s : PyStr) : PyStr :=
  stripRight (stripLeft s)

/-- Python `s.split(" ")`: split on each single space, keeping empty pieces. -/
def splitSpace : PyStr → List PyStr
  | [] => [[]]
  | c :: rest =>
    if c = ' ' then [] :: splitSpace rest
    else
      match splitSpace rest with
      | [] => [[c]]
      | t :: ts => (c :: t) :: ts

/-- Python `" ".join(parts)`. -/
def joinSpace : List PyStr → PyStr
  | [] => []
  | [t] => t
  | t :: ts => t ++ ' ' :: joinSpace ts

/-- Code-point comparison of characters, as Python's `<` on one-character
strings. -/
def charLt (a b : Char) : Bool :=
  a.toNat < b.toNat

/-- Lexicographic code-point comparison of strings, Python's `<` on `str`. -/
def lexLt : PyStr → PyStr → Bool
  | [], [] => false
  | [], _ :: _ => true
  | _ :: _, [] => false
  | a :: as, b :: bs =>
    if charLt a b then true
    else if charLt b a then false
    else lexLt as bs

/-- Insertion into the canonical (strictly sorted, duplicate-free) list
representing a Python `set[str]`; `s.add(x)` on the canonical form. -/
def setInsert (x : PyStr) : List PyStr → List PyStr
  | [] => [x]
  | y :: ys =>
    if lexLt x y then x :: y :: ys
    else if lexLt y x then y :: setInsert x ys
    else y :: ys

/-- Insertion into the canonical (key-sorted) association list representing a
Python `dict[str, str]`; `d[k] = v` on the canonical form. -/
def mapInsert (k v : PyStr) : List (PyStr × PyStr) → List (PyStr × PyStr)
  | [] => [(k, v)]
  | (k', v') :: rest =>
    if lexLt k k' then (k, v) :: (k', v') :: rest
    else if lexLt k' k then (k', v') :: mapInsert k v rest
    else (k', v) :: rest

/-- Key lookup in the association list representing a Python dict
(`d.get(k)` / `k in d`). -/
def mapFind (k : PyStr) : List (PyStr × PyStr) → Option PyStr
  | [] => none
  | (k', v') :: rest => if k' = k then some v' else mapFind k rest

/-! ### Dates (`datetime.date`, `parse_date`, `serialize_date`) -/

/-- A calendar date as held by `datetime.date`. -/
structure Date where
  year : Nat
  month : Nat
  day : Nat
  deriving DecidableEq

/-- Gregorian leap-year test. -/
def isLeap (y : Nat) : Bool :=
  y % 4 = 0 && (y % 100 ≠ 0 || y % 400 = 0)

/-- Number of days in a month of a given year. -/
def daysInMonth (y m : Nat) : Nat :=
  if m = 2 then (if isLeap y then 29 else 28)
  else if m = 4 || m = 6 || m = 9 || m = 11 then 30
  else 31

/-- Validity of a date, as enforced by the `datetime.date` constructor
(`MINYEAR = 1`, `MAXYEAR = 9999`). -/
def Date.valid (d : Date) : Bool :=
  1 ≤ d.year && d.year ≤ 9999 &&
  1 ≤ d.month && d.month ≤ 12 &&
  1 ≤ d.day && d.day ≤ daysInMonth d.year d.month

/-- The decimal digit character for `n % 10`. -/
def digitCh (n : Nat) : Char :=
  match n % 10 with
  | 0 => '0' | 1 => '1' | 2 => '2' | 3 => '3' | 4 => '4'
  | 5 => '5' | 6 => '6' | 7 => '7' | 8 => '8' | _ => '9'

/-- Numeric value of a digit character. -/
def digitVal (c : Char) : Nat :=
  c.toNat - 48

/-- Is `c` an ASCII decimal digit? -/
def isDigitCh (c : Char) : Bool :=
  '0' ≤ c && c ≤ '9'

/-- `serialize_date` / `strftime("%Y-%m-%d")`: zero-padded `YYYY-MM-DD`. -/
def serialize_date (d : Date) : PyStr :=
  [digitCh (d.year / 1000), digitCh (d.year / 100), digitCh (d.year / 10),
   digitCh d.year, '-', digitCh (d.month / 10), digitCh d.month, '-',
   digitCh (d.day / 10), digitCh d.day]

/-- `parse_date`: accept exactly `YYYY-MM-DD` (the `^\d{4}-\d{2}-\d{2}$`
regular expression), then validate through `strptime`, returning `none` on any
failure. -/
def parse_date : PyStr → Option Date
  | [y1, y2, y3, y4, '-', m1, m2, '-', d1, d2] =>
    if isDigitCh y1 && isDigitCh y2 && isDigitCh y3 && isDigitCh y4 &&
       isDigitCh m1 && isDigitCh m2 && isDigitCh d1 && isDigitCh d2 then
      let d : Date :=
        ⟨((digitVal y1 * 10 + digitVal y2) * 10 + digitVal y3) * 10 + digitVal y4,
         digitVal m1 * 10 + digitVal m2,
         digitVal d1 * 10 + digitVal d2⟩
      if d.valid then some d else none
    else none
  | _ => none

/-! ### The Task record (`serda.Task`) -/

/-- `serda.Task`: the dataclass with all of its fields and defaults.
`projects`/`contexts` are the canonical sorted lists of the Python sets and
`metadata` is the canonical key-sorted association list of the Python dict. -/
structure Task where
  completed : Bool := false
  priority : Option PyStr := none
  completion_date : Option Date := none
  creation_date : Option Date := none
  description : PyStr := []
  projects : List PyStr := []
  contexts : List PyStr := []
  metadata : List (PyStr × PyStr) := []
  effort : Option PyStr := none
  deriving DecidableEq

/-- The `Task(...)` constructor including `__post_init__`, which forces
`priority` to `None` whenever `completed` is true. -/
def Task.init (completed : Bool) (priority : Option PyStr)
    (completion_date creation_date : Option Date) (description : PyStr)
    (projects contexts : List PyStr) (metadata : List (PyStr × PyStr))
    (effort : Option PyStr) : Task :=
  { completed := completed
    priority := if completed then none else priority
    completion_date := completion_date
    creation_date := creation_date
    description := description
    projects := projects
    contexts := contexts
    metadata := metadata
    effort := effort }

/-- Truthiness of an optional Python string (`if self.priority:` etc.):
present and nonempty. -/
def optTruthy : Option PyStr → Bool
  | none => false
  | some s => s ≠ []

/-- The `"x"` marker part of `Task.__str__` (`if self.completed`). -/
def xToks (t : Task) : List PyStr :=
  if t.completed then [['x']] else []

/-- The `"(P)"` part of `Task.__str__` (`if self.priority`, truthiness). -/
def priToks (t : Task) : List PyStr :=
  match t.priority with
  | some p => if p ≠ [] then ['(' :: (p ++ [')'])] else []
  | none => []

/-- The completion-date part of `Task.__str__`
(`if self.completed and self.completion_date`). -/
def cdToks (t : Task) : List PyStr :=
  if t.completed then
    (match t.completion_date with
     | some d => [serialize_date d]
     | none => [])
  else []

/-- The creation-date part of `Task.__str__`. -/
def crToks (t : Task) : List PyStr :=
  match t.creation_date with
  | some d => [serialize_date d]
  | none => []

/-- The trailing parts of `Task.__str__`: sorted `+project` and `@context`
tokens, the `effort:` token (`if self.effort`, truthiness), and the sorted
`key:value` metadata tokens. -/
def postToks (t : Task) : List PyStr :=
  t.projects.map (fun p => '+' :: p) ++
  t.contexts.map (fun c => '@' :: c) ++
  (match t.effort with
   | some e => if e ≠ [] then ["effort:".toList ++ e] else []
   | none => []) ++
  t.metadata.map (fun kv => kv.1 ++ ':' :: kv.2)

/-- The `parts` list built by `Task.__str__` before `" ".join`. -/
def Task.strParts (t : Task) : List PyStr :=
  xToks t ++ priToks t ++ cdToks t ++ crToks t ++ [t.description] ++ postToks t

/-- `Task.__str__`: the serialized todo.txt line. -/
def Task.toLine (t : Task) : PyStr :=
  joinSpace t.strParts

/-- `Task.complete`: store a truthy priority under metadata key `"pri"`, mark
completed with today's date, and clear the priority.  `datetime.date.today()`
is passed explicitly. -/
def Task.complete (t : Task) (today : Date) : Task :=
  let md :=
    match t.priority with
    | some p => if p ≠ [] then mapInsert "pri".toList p t.metadata else t.metadata
    | none => t.metadata
  { t with
      completed := true
      completion_date := some today
      priority := none
      metadata := md }

/-! ### Parsing (`parse_task`) -/

/-- The `^\([A-Z]\)$` priority-marker test. -/
def priMatch : PyStr → Bool
  | ['(', c, ')'] => 'A' ≤ c && c ≤ 'Z'
  | _ => false

/-- The priority letter extracted by `parts[0][1]` from a matched marker. -/
def priLetter : PyStr → PyStr
  | _ :: c :: _ => [c]
  | _ => []

/-- Split a token at its first `':'` (`part.split(":", 1)`), or `none` when the
token has no colon. -/
def splitColon : PyStr → Option (PyStr × PyStr)
  | [] => none
  | c :: rest =>
    if c = ':' then some ([], rest)
    else
      match splitColon rest with
      | some (k, v) => some (c :: k, v)
      | none => none

/-- One iteration of the token-classification loop of `parse_task`: the state
is the task under construction together with the accumulated
`description_parts`. -/
def classify (s : Task × List PyStr) (w : PyStr) : Task × List PyStr :=
  if w.head? = some '+' && decide (1 < w.length) then
    ({ s.1 with projects := setInsert w.tail s.1.projects }, s.2)
  else if w.head? = some '@' && decide (1 < w.length) then
    ({ s.1 with contexts := setInsert w.tail s.1.contexts }, s.2)
  else
    match splitColon w with
    | some (k, v) =>
      if k = [] then (s.1, s.2 ++ [w])
      else if k = "effort".toList then ({ s.1 with effort := some v }, s.2)
      else ({ s.1 with metadata := mapInsert k v s.1.metadata }, s.2)
    | none => (s.1, s.2 ++ [w])

/-- The priority step of `parse_task`: consume a leading `^\([A-Z]\)$`
token. -/
def priStep (t : Task) (tokens : List PyStr) : Task × List PyStr :=
  match tokens with
  | w :: rest =>
    if priMatch w then ({ t with priority := some (priLetter w) }, rest)
    else (t, tokens)
  | [] => (t, tokens)

/-- The completion-date step of `parse_task`: on a completed task, consume a
leading parsable date. -/
def cdStep (t : Task) (tokens : List PyStr) : Task × List PyStr :=
  match tokens with
  | w :: rest =>
    if t.completed then
      match parse_date w with
      | some d => ({ t with completion_date := some d }, rest)
      | none => (t, tokens)
    else (t, tokens)
  | [] => (t, tokens)

/-- The creation-date step of `parse_task`: consume a leading parsable
date. -/
def crStep (t : Task) (tokens : List PyStr) : Task × List PyStr :=
  match tokens with
  | w :: rest =>
    match parse_date w with
    | some d => ({ t with creation_date := some d }, rest)
    | none => (t, tokens)
  | [] => (t, tokens)

/-- The token-level phase of `parse_task`: priority, then completion date (for
completed tasks), then creation date, then the classification loop; finally the
description is reassembled.  The index arithmetic of the source is rendered as
consuming the head of the token list. -/
def parseTokens (completed : Bool) (tokens : List PyStr) : Task :=
  let s1 := priStep { completed := completed } tokens
  let s2 := cdStep s1.1 s1.2
  let s3 := crStep s2.1 s2.2
  let s4 := s3.2.foldl classify (s3.1, [])
  { s4.1 with description := strip (joinSpace s4.2) }

/-- `parse_task`: blank lines give the default task; a `"x "` prefix marks
completion; the remainder is stripped, split on spaces and handed to the
token phase. -/
def parse_task (line : PyStr) : Task :=
  if strip line = [] then {}
  else
    let completed := line.take 2 = "x ".toList
    let line' := if completed then line.drop 2 else line
    parseTokens completed (splitSpace (strip line'))

/-! ### Recurrence (`Task.recur`, `Task.validate_recurrence`)

`datetime.date` arithmetic (`+ timedelta(days=n)`, `<=`) is modelled through a
day count from 0000-03-01 (the standard civil-calendar conversion); only
differences and comparisons of day counts are ever used. -/

/-- Days since 0000-03-01 of a (valid) date. -/
def toDays (d : Date) : Nat :=
  let y := if d.month ≤ 2 then d.year - 1 else d.year
  let era := y / 400
  let yoe := y - era * 400
  let mp := (d.month + 9) % 12
  let doy := (153 * mp + 2) / 5 + d.day - 1
  let doe := yoe * 365 + yoe / 4 - yoe / 100 + doy
  era * 146097 + doe

/-- The date with the given day count since 0000-03-01. -/
def ofDays (n : Nat) : Date :=
  let era := n / 146097
  let doe := n % 146097
  let yoe := (doe - doe / 1460 + doe / 36524 - doe / 146096) / 365
  let y := yoe + era * 400
  let doy := doe - (365 * yoe + yoe / 4 - yoe / 100)
  let mp := (5 * doy + 2) / 153
  let dd := doy - (153 * mp + 2) / 5 + 1
  let m := if mp < 10 then mp + 3 else mp - 9
  ⟨if mp < 10 then y else y + 1, m, dd⟩

/-- `d + datetime.timedelta(days = n)`. -/
def addDays (d : Date) (n : Nat) : Date :=
  ofDays (toDays d + n)

/-- `d1 <= d2` on dates. -/
def dateLe (a b : Date) : Bool :=
  toDays a ≤ toDays b

/-- The `while next_due_date <= today` loop of `Task.recur`, with enough fuel
to run to completion whenever the step is positive. -/
def recurWhile (step : Nat) (today : Date) : Nat → Date → Date
  | 0, next => next
  | fuel + 1, next =>
    if dateLe next today then recurWhile step today fuel (addDays next step)
    else next

/-- The next-due-date computation performed by `Task.recur`:
`next = due + step`, then add `step` while `next <= today`. -/
def nextDueDate (due : Date) (step : Nat) (today : Date) : Date :=
  recurWhile step today (toDays today + 1) (addDays due step)

/-- Python `int()` on a digit string. -/
def strToNat (s : PyStr) : Nat :=
  s.foldl (fun a c => a * 10 + digitVal c) 0

/-- `Task.validate_recurrence`: requires metadata key `"recur"` holding a
positive all-digit string (`str.isdigit()` demands nonempty) and metadata key
`"due"` holding a parsable date. -/
def Task.validate_recurrence (t : Task) : Bool :=
  match mapFind "recur".toList t.metadata with
  | none => false
  | some r =>
    if !(r ≠ [] && r.all isDigitCh) then false
    else if strToNat r < 1 then false
    else
      match mapFind "due".toList t.metadata with
      | none => false
      | some ds => (parse_date ds).isSome

/-- `Task.recur`: validate, compute the next due date past today, and build the
follow-up task through the `Task(...)` constructor.  As in the source, the
computed `next_due_date` is bound but never written into the new task's
metadata, which is a straight copy of the old one.
`datetime.date.today()` is passed explicitly. -/
def Task.recur (t : Task) (today : Date) : Option Task :=
  if !t.validate_recurrence then none
  else
    match mapFind "due".toList t.metadata, mapFind "recur".toList t.metadata with
    | some ds, some rs =>
      match parse_date ds with
      | some due =>
        let recur_days := strToNat rs
        let _next_due_date := nextDueDate due recur_days today
        some (Task.init false t.priority none (some today) t.description
          t.projects t.contexts t.metadata t.effort)
      | none => none
    | _, _ => none

/-! ### Sorting on write (`core.sort_tasks`) -/

/-- The `priority_key` of `sort_tasks`: tasks whose priority is falsy get the
sentinel key `"Z"`. -/
def priority_key (t : Task) : PyStr :=
  match t.priority with
  | none => ['Z']
  | some p => if p = [] then ['Z'] else p

/-- Stable insertion of a task into an already-sorted list: the new task goes
after every existing task whose key is not greater. -/
def insertTask (x : Task) : List Task → List Task
  | [] => [x]
  | y :: ys =>
    if lexLt (priority_key x) (priority_key y) then x :: y :: ys
    else y :: insertTask x ys

/-- `sort_tasks`: the stable sort by `priority_key` applied by `write_tasks`
when auto-sort is enabled (Python's `sorted` is stable, and a stable sort by a
total key order is unique, so insertion sort is extensionally equal to it). -/
def sort_tasks (tasks : List Task) : List Task :=
  tasks.foldl (fun acc x => insertTask x acc) []

/-! ### The git service (`git_service.GitService`)

The pygit2 layer is the environment: each record field is the outcome of one
external git query or action observed by the control flow under scrutiny.  The
embedded functions reproduce the source's branching on those outcomes. -/

/-- Environment for `GitService.pull`: repository discovery, repository open,
the configured remotes, fetch outcome, and existence of the remote-tracking
references consulted (current-branch ref, then the `master` fallback). -/
structure PullEnv where
  isRepo : Bool
  openOk : Bool
  remotes : List PyStr
  fetchOk : Bool
  branchRefExists : Bool
  masterRefExists : Bool

/-- `GitService.has_remote`: a repository with at least one configured
remote. -/
def has_remote (e : PullEnv) : Bool :=
  e.isRepo && e.openOk && decide (0 < e.remotes.length)

/-- `GitService.pull`: not a repo or no remote gives `false`; a fetch failure
gives `false`; every merge outcome (including conflicts, a `GitError`, or a
missing remote branch) is reported as success. -/
def pull (e : PullEnv) : Bool :=
  if !(e.isRepo && has_remote e) then false
  else if !e.openOk then false
  else if e.remotes = [] then false
  else if !e.fetchOk then false
  else if e.branchRefExists then true
  else if e.masterRefExists then true
  else true

/-- The git operations `GitService.sync` can invoke on its repository. -/
inductive GitOp where
  | pullOp
  | stageOp
  | commitOp
  | pushOp
  deriving DecidableEq

/-- Environment for `GitService.sync`: outcomes of the sub-operations and
queries it performs, in source order. -/
structure SyncEnv where
  isRepo : Bool
  hasRemote : Bool
  pullOk : Bool
  stageOk : Bool
  openOk : Bool
  hasChanges : Bool
  commitOk : Bool
  pushOk : Bool

/-- `GitService.sync`: pull (result observed, never aborting), stage (hard
stop on failure), status check, optional commit, optional push (result never
changing the overall outcome).  Returns the overall boolean together with the
trace of git operations invoked. -/
def sync (e : SyncEnv) (auto_commit auto_sync : Bool) : Bool × List GitOp :=
  if !e.isRepo then (false, [])
  else
    let ops0 := if e.hasRemote then [GitOp.pullOp] else []
    let ops1 := ops0 ++ [GitOp.stageOp]
    if !e.stageOk then (false, ops1)
    else if !e.openOk then (false, ops1)
    else if !e.hasChanges then (true, ops1)
    else if !auto_commit then (true, ops1)
    else if !e.commitOk then (false, ops1 ++ [GitOp.commitOp])
    else if e.hasRemote && auto_sync then (true, ops1 ++ [GitOp.commitOp, GitOp.pushOp])
    else (true, ops1 ++ [GitOp.commitOp])

/-- Result of `GitService.stage_changes`: an ordinary boolean return, or the
`ValueError` contract violation that escapes the `except pygit2.GitError`
handler. -/
inductive StageResult where
  | ok (success : Bool)
  | valueError
  deriving DecidableEq

/-- Does `p` resolve inside the root `r` in the sense of
`pathlib.Path.relative_to`: equal to the root, or a component-wise
extension of it? -/
def isSubpathB (root p : PyStr) : Bool :=
  p = root || (root ++ ['/']).isPrefixOf p

/-- `GitService.stage_changes` on a concrete path: outside a repository the
result is `false`; for a path argument, a failed `str.startswith` root check
raises `ValueError` explicitly, and a path passing it that is still not
relative to the root makes `Path.relative_to` raise `ValueError`; both escape
(only `GitError` is caught).  Inside the root, the index operations yield a
boolean (`gitOk`), with `GitError` mapped to `false`. -/
def stage_changes (isRepo openOk : Bool) (repoDir : PyStr) (path : Option PyStr)
    (gitOk : Bool) : StageResult :=
  if !isRepo then .ok false
  else if !openOk then .ok false
  else
    match path with
    | some p =>
      if !(repoDir.isPrefixOf p) then .valueError
      else if !(isSubpathB repoDir p) then .valueError
      else .ok gitOk
    | none => .ok gitOk

/-! ### Well-formedness for the round-trip law -/

/-- Is every character of `s` non-whitespace? -/
def wsFree (s : PyStr) : Bool :=
  s.all (fun c => !isWSChar c)

/-- A nonempty whitespace-free name (project/context names, effort values). -/
def nameOK (s : PyStr) : Bool :=
  s ≠ [] && wsFree s

/-- A metadata key that serializes reversibly: nonempty, whitespace-free,
colon-free, not starting with a project/context sigil, and not the promoted
key `"effort"`. -/
def keyOK (k : PyStr) : Bool :=
  nameOK k && !(k.any (fun c => c = ':')) &&
  !(k.head? = some '+') && !(k.head? = some '@') && k ≠ "effort".toList

/-- A whitespace-free metadata value (it may be empty and may contain
colons). -/
def valOK (v : PyStr) : Bool :=
  wsFree v

/-- A description word that survives tokenization unambiguously: nonempty,
whitespace-free, no colon, not starting with `+` or `@`, not a date, not a
priority marker, and not the bare completion marker `x`. -/
def wordOK (w : PyStr) : Bool :=
  w ≠ [] && wsFree w && !(w.head? = some '+') && !(w.head? = some '@') &&
  !(w.any (fun c => c = ':')) && (parse_date w).isNone && !priMatch w &&
  w ≠ ['x']

/-- A priority field as the data model allows: absent, or one letter A–Z. -/
def prioOK : Option PyStr → Bool
  | none => true
  | some [c] => 'A' ≤ c && c ≤ 'Z'
  | some _ => false

/-- Tasks without malformed internal data: the hypotheses under which
serialization followed by parsing is the identity.  Includes the claim's
conditions (description words carry no tag sigils or colons, no completion
date on an uncompleted task, no `"effort"` metadata key — the latter via
`keyOK`) together with the further conditions the grammar forces. -/
def WF (t : Task) : Prop :=
  prioOK t.priority = true ∧
  (t.completed = false → t.completion_date = none) ∧
  (t.completed = true → t.creation_date ≠ none → t.completion_date ≠ none) ∧
  (∀ d, t.completion_date = some d → d.valid = true) ∧
  (∀ d, t.creation_date = some d → d.valid = true) ∧
  (t.description = [] ∨ ∀ w ∈ splitSpace t.description, wordOK w = true) ∧
  List.Pairwise (fun a b => lexLt a b = true) t.projects ∧
  (∀ p ∈ t.projects, nameOK p = true) ∧
  List.Pairwise (fun a b => lexLt a b = true) t.contexts ∧
  (∀ c ∈ t.contexts, nameOK c = true) ∧
  List.Pairwise (fun a b => lexLt a.1 b.1 = true) t.metadata ∧
  (∀ kv ∈ t.metadata, keyOK kv.1 = true ∧ valOK kv.2 = true) ∧
  (∀ e, t.effort = some e → nameOK e = true)

instance (t : Task) : Decidable (WF t) := by
  unfold WF
  infer_instance

/-! ## Shared lemmas -/

theorem char_eq_of_toNat_eq {a b : Char} (h : a.toNat = b.toNat) : a = b :=
  Char.eq_of_val_eq (UInt32.eq_of_toBitVec_eq (BitVec.eq_of_toNat_eq
    (by simpa [Char.toNat, UInt32.toNat] using h)))

theorem lexLt_irrefl (a : PyStr) : lexLt a a = false := by
  induction a with
  | nil => rfl
  | cons c cs ih => simp [lexLt, charLt, ih]

theorem lexLt_asymm : ∀ a b : PyStr, lexLt a b = true → lexLt b a = false := by
  intro a
  induction a with
  | nil => intro b _; cases b <;> rfl
  | cons c cs ih =>
    intro b h
    cases b with
    | nil => simp [lexLt] at h
    | cons d ds =>
      simp only [lexLt, charLt] at h ⊢
      by_cases h1 : c.toNat < d.toNat
      · simp [h1, Nat.lt_asymm h1]
      · by_cases h2 : d.toNat < c.toNat
        · simp [h1, h2] at h
        · simp [h1, h2] at h ⊢
          exact ih ds h

theorem lexLt_total_eq : ∀ a b : PyStr, lexLt a b = false → lexLt b a = false → a = b := by
  intro a
  induction a with
  | nil =>
    intro b h1 _
    cases b with
    | nil => rfl
    | cons d ds => simp [lexLt] at h1
  | cons c cs ih =>
    intro b h1 h2
    cases b with
    | nil => simp [lexLt] at h2
    | cons d ds =>
      simp only [lexLt, charLt] at h1 h2
      by_cases hcd : c.toNat < d.toNat
      · simp [hcd] at h1
      · by_cases hdc : d.toNat < c.toNat
        · simp [hdc, hcd] at h2
        · simp [hcd, hdc] at h1 h2
          have hc : c = d := char_eq_of_toNat_eq (by omega)
          rw [hc, ih ds h1 h2]

theorem mapFind_mapInsert_self (k v : PyStr) (m : List (PyStr × PyStr)) :
    mapFind k (mapInsert k v m) = some v := by
  induction m with
  | nil => simp [mapInsert, mapFind]
  | cons kv rest ih =>
    obtain ⟨k', v'⟩ := kv
    by_cases h1 : lexLt k k' = true
    · simp [mapInsert, h1, mapFind]
    · by_cases h2 : lexLt k' k = true
      · have hne : k' ≠ k := by
          intro he; rw [he] at h2; rw [lexLt_irrefl] at h2; exact Bool.false_ne_true h2
        simp only [mapInsert, h1, h2]
        simp only [Bool.not_eq_true] at h1
        simp [h1, mapFind, hne, ih]
      · have he : k = k' := lexLt_total_eq _ _ (by simpa using h1) (by simpa using h2)
        subst he
        simp [mapInsert, lexLt_irrefl, mapFind]

theorem mapFind_mapInsert_other (j k v : PyStr) (m : List (PyStr × PyStr)) (hjk : j ≠ k) :
    mapFind j (mapInsert k v m) = mapFind j m := by
  have hkj : ¬ k = j := fun h => hjk h.symm
  induction m with
  | nil => simp [mapInsert, mapFind, hkj]
  | cons kv rest ih =>
    obtain ⟨k', v'⟩ := kv
    by_cases h1 : lexLt k k' = true
    · simp [mapInsert, h1, mapFind, hkj]
    · by_cases h2 : lexLt k' k = true
      · simp [mapInsert, h1, h2, mapFind, ih]
      · have he : k = k' := lexLt_total_eq _ _ (by simpa using h1) (by simpa using h2)
        subst he
        simp [mapInsert, h1, mapFind, hkj]

theorem isPrefixOf_of_subpath {root p : PyStr} (h : isSubpathB root p = true) :
    root.isPrefixOf p = true := by
  rw [List.isPrefixOf_iff_prefix]
  unfold isSubpathB at h
  rcases Bool.or_eq_true_iff.mp h with h1 | h2
  · have : p = root := by simpa using h1
    rw [this]
  · have hp : (root ++ ['/']) <+: p := by rwa [List.isPrefixOf_iff_prefix] at h2
    exact List.IsPrefix.trans (List.prefix_append root ['/']) hp

/-! ### String lemmas: `split`, `join`, `strip` -/

theorem splitSpace_ne_nil (s : PyStr) : splitSpace s ≠ [] := by
  cases s with
  | nil => simp [splitSpace]
  | cons c rest =>
    by_cases h : c = ' '
    · simp [splitSpace, h]
    · simp only [splitSpace, h, if_false]
      cases hs : splitSpace rest <;> simp

theorem joinSpace_cons (t : PyStr) (ts : List PyStr) (h : ts ≠ []) :
    joinSpace (t :: ts) = t ++ ' ' :: joinSpace ts := by
  cases ts with
  | nil => exact absurd rfl h
  | cons u us => rfl

theorem joinSpace_splitSpace (s : PyStr) : joinSpace (splitSpace s) = s := by
  induction s with
  | nil => rfl
  | cons c rest ih =>
    by_cases h : c = ' '
    · subst h
      have h1 : splitSpace (' ' :: rest) = [] :: splitSpace rest := by
        simp [splitSpace]
      rw [h1, joinSpace_cons _ _ (splitSpace_ne_nil rest)]
      simp [ih]
    · simp only [splitSpace, h, if_false]
      cases hs : splitSpace rest with
      | nil => exact absurd hs (splitSpace_ne_nil rest)
      | cons u us =>
        rw [hs] at ih
        cases us with
        | nil => simpa [joinSpace] using congrArg (c :: ·) ih
        | cons v vs =>
          rw [joinSpace_cons _ _ (by simp)] at ih ⊢
          simpa using congrArg (c :: ·) ih

theorem joinSpace_append (xs ys : List PyStr) (hx : xs ≠ []) (hy : ys ≠ []) :
    joinSpace (xs ++ ys) = joinSpace xs ++ ' ' :: joinSpace ys := by
  induction xs with
  | nil => exact absurd rfl hx
  | cons x xs' ih =>
    cases xs' with
    | nil =>
      rw [List.singleton_append, joinSpace_cons _ _ hy]
      rfl
    | cons x2 xs'' =>
      rw [List.cons_append, joinSpace_cons _ _ (by simp),
        joinSpace_cons _ _ (by simp), ih (by simp)]
      simp

theorem splitSpace_token_cons (t r : PyStr) (h : ' ' ∉ t) :
    splitSpace (t ++ ' ' :: r) = t :: splitSpace r := by
  induction t with
  | nil => simp [splitSpace]
  | cons c t' ih =>
    have hc : ¬ c = ' ' := fun he => h (he ▸ List.mem_cons_self c t')
    have ht' : ' ' ∉ t' := fun hm => h (List.mem_cons_of_mem c hm)
    rw [List.cons_append]
    simp only [splitSpace, hc, if_false]
    rw [ih ht']

theorem splitSpace_no_space (t : PyStr) (h : ' ' ∉ t) : splitSpace t = [t] := by
  induction t with
  | nil => rfl
  | cons c t' ih =>
    have hc : ¬ c = ' ' := fun he => h (he ▸ List.mem_cons_self c t')
    have ht' : ' ' ∉ t' := fun hm => h (List.mem_cons_of_mem c hm)
    simp only [splitSpace, hc, if_false]
    rw [ih ht']

theorem splitSpace_joinSpace_append (ts : List PyStr) (r : PyStr) (h : ts ≠ [])
    (hs : ∀ t ∈ ts, ' ' ∉ t) :
    splitSpace (joinSpace ts ++ ' ' :: r) = ts ++ splitSpace r := by
  induction ts with
  | nil => exact absurd rfl h
  | cons t ts' ih =>
    cases ts' with
    | nil =>
      simp only [joinSpace, List.singleton_append]
      rw [splitSpace_token_cons t r (hs t (List.mem_cons_self t []))]
    | cons u us =>
      rw [joinSpace_cons _ _ (by simp), List.append_assoc, List.cons_append]
      rw [splitSpace_token_cons t _ (hs t (List.mem_cons_self t _))]
      rw [ih (by simp) (fun x hx => hs x (List.mem_cons_of_mem t hx))]
      rfl

theorem splitSpace_joinSpace (ts : List PyStr) (h : ts ≠ [])
    (hs : ∀ t ∈ ts, ' ' ∉ t) : splitSpace (joinSpace ts) = ts := by
  induction ts with
  | nil => exact absurd rfl h
  | cons t ts' ih =>
    cases ts' with
    | nil => exact splitSpace_no_space t (hs t (List.mem_cons_self t []))
    | cons u us =>
      rw [joinSpace_cons _ _ (by simp),
        splitSpace_token_cons t _ (hs t (List.mem_cons_self t _)),
        ih (by simp) (fun x hx => hs x (List.mem_cons_of_mem t hx))]

theorem stripLeft_eq_self (s : PyStr)
    (h : ∀ c, s.head? = some c → isWSChar c = false) : stripLeft s = s := by
  cases s with
  | nil => rfl
  | cons c rest => simp [stripLeft, h c rfl]

theorem stripRight_eq_self (s : PyStr)
    (h : ∀ c, s.getLast? = some c → isWSChar c = false) : stripRight s = s := by
  unfold stripRight
  rw [stripLeft_eq_self s.reverse (fun c hc => h c (by rwa [List.head?_reverse] at hc)),
    List.reverse_reverse]

theorem strip_eq_self (s : PyStr)
    (h1 : ∀ c, s.head? = some c → isWSChar c = false)
    (h2 : ∀ c, s.getLast? = some c → isWSChar c = false) : strip s = s := by
  unfold strip
  rw [stripLeft_eq_self s h1, stripRight_eq_self s h2]

theorem head?_joinSpace (t : PyStr) (ts : List PyStr) (ht : t ≠ []) :
    (joinSpace (t :: ts)).head? = t.head? := by
  cases ts with
  | nil => rfl
  | cons u us =>
    rw [joinSpace_cons _ _ (by simp)]
    cases t with
    | nil => exact absurd rfl ht
    | cons c cs => rfl

theorem joinSpace_ends_with (ts : List PyStr) (t : PyStr) :
    ∃ pre : PyStr, joinSpace (ts ++ [t]) = pre ++ t := by
  induction ts with
  | nil => exact ⟨[], rfl⟩
  | cons s ss ih =>
    obtain ⟨pre, hpre⟩ := ih
    refine ⟨s ++ ' ' :: pre, ?_⟩
    rw [List.cons_append, joinSpace_cons _ _ (by simp), hpre]
    simp

theorem getLast?_joinSpace (ts : List PyStr) (t : PyStr) (ht : t ≠ []) :
    (joinSpace (ts ++ [t])).getLast? = t.getLast? := by
  obtain ⟨pre, hpre⟩ := joinSpace_ends_with ts t
  rw [hpre, List.getLast?_append]
  cases hgl : t.getLast? with
  | none => simp [List.getLast?_eq_none_iff] at hgl; exact absurd hgl ht
  | some c => rfl

theorem wsFree_head (t : PyStr) (h : wsFree t = true) :
    ∀ c, t.head? = some c → isWSChar c = false := by
  intro c hc
  cases t with
  | nil => simp at hc
  | cons d ds =>
    have hd : d = c := by simpa using hc
    have := List.all_eq_true.mp h d (List.mem_cons_self d ds)
    rw [← hd]
    simpa using this

theorem wsFree_getLast (t : PyStr) (h : wsFree t = true) :
    ∀ c, t.getLast? = some c → isWSChar c = false := by
  intro c hc
  have hm : c ∈ t := List.mem_of_mem_getLast? hc
  have := List.all_eq_true.mp h c hm
  simpa using this

/-- Serialized token lists whose members are nonempty and whitespace-free
pass through `strip` and `splitSpace` unchanged. -/
theorem strip_joinSpace_eq (ts : List PyStr) (h : ts ≠ [])
    (ht : ∀ t ∈ ts, t ≠ [] ∧ wsFree t = true) :
    strip (joinSpace ts) = joinSpace ts := by
  cases ts with
  | nil => exact absurd rfl h
  | cons t ts' =>
    obtain ⟨hne, hws⟩ := ht t (List.mem_cons_self t ts')
    apply strip_eq_self
    · intro c hc
      rw [head?_joinSpace t ts' hne] at hc
      exact wsFree_head t hws c hc
    · intro c hc
      obtain ⟨ts'', u, hu⟩ : ∃ ts'' u, t :: ts' = ts'' ++ [u] := by
        refine ⟨(t :: ts').dropLast, (t :: ts').getLast (by simp), ?_⟩
        rw [List.dropLast_append_getLast]
      obtain ⟨hun, _⟩ := ht u (by rw [hu]; exact List.mem_append_right _ (List.mem_cons_self u []))
      rw [hu, getLast?_joinSpace ts'' u hun] at hc
      have hmu : c ∈ u := List.mem_of_mem_getLast? hc
      obtain ⟨_, huws⟩ := ht u (by rw [hu]; exact List.mem_append_right _ (List.mem_cons_self u []))
      have := List.all_eq_true.mp huws c hmu
      simpa using this

theorem wsFree_no_space (t : PyStr) (h : wsFree t = true) : ' ' ∉ t := by
  intro hm
  have := List.all_eq_true.mp h ' ' hm
  simp [isWSChar] at this

/-! ## Claim C1 -/

/-- **C1** (code bug): `recur()` computes the next due date strictly after
today (for `due=2024-01-01`, `recur=7`, `today=2024-01-20` that computation
yields 2024-01-22) but never writes it into the produced task: the new task's
`metadata["due"]` is still `"2024-01-01"`, not `"2024-01-22"` as the claim
(and the repository's own test `test_recur_sets_due_date_correctly`)
requires. -/
theorem recur_keeps_stale_due :
    nextDueDate ⟨2024, 1, 1⟩ 7 ⟨2024, 1, 20⟩ = ⟨2024, 1, 22⟩ ∧
    Task.recur
      { description := "water plants".toList,
        metadata := [("due".toList, "2024-01-01".toList),
                     ("recur".toList, "7".toList)] }
      ⟨2024, 1, 20⟩ =
    some
      { completed := false,
        priority := none,
        completion_date := none,
        creation_date := some ⟨2024, 1, 20⟩,
        description := "water plants".toList,
        projects := [],
        contexts := [],
        metadata := [("due".toList, "2024-01-01".toList),
                     ("recur".toList, "7".toList)],
        effort := none } := by
  constructor
  · decide
  · decide

/-! ## Claim C3 -/

/-- **C3** (code bug): `sort_tasks` keys untagged tasks with the sentinel
`"Z"`, so a task with priority `Z` ties with untagged tasks instead of
preceding them; with the untagged task first in the input, the stable sort
leaves it before the `(Z)` task, contradicting the claim (and the function's
own docstring) that tasks without priority come after all lettered tasks. -/
theorem sort_tasks_unpri_ties_with_z :
    ({ description := ['b'] } : Task).priority = none ∧
    ({ description := ['z'], priority := some ['Z'] } : Task).priority = some ['Z'] ∧
    sort_tasks [{ description := ['b'] },
                { description := ['z'], priority := some ['Z'] }] =
      [{ description := ['b'] },
       { description := ['z'], priority := some ['Z'] }] := by
  refine ⟨rfl, rfl, ?_⟩
  decide

/-! ## Claim C4 -/

/-- **C4** (counterexample to the claim as stated): on a repository with no
remote configured, `pull()` returns `false`, not the success the claim
asserts. -/
theorem pull_no_remote_returns_false :
    (PullEnv.mk true true [] true true true).isRepo = true ∧
    has_remote (PullEnv.mk true true [] true true true) = false ∧
    pull (PullEnv.mk true true [] true true true) = false := by
  decide

/-- **C4** (amended): whenever no remote is configured (`has_remote` is
false), `pull()` is a no-op that returns failure (`false`); this matches the
repository's own test `test_pull_no_remote`. -/
theorem pull_no_remote_spec (e : PullEnv) (h : has_remote e = false) :
    pull e = false := by
  unfold pull
  simp [h]

/-- Witness for `pull_no_remote_spec` at a concrete environment. -/
theorem pull_no_remote_spec_witness :
    pull (PullEnv.mk true true [] true false false) = false :=
  pull_no_remote_spec (PullEnv.mk true true [] true false false) (by decide)

/-! ## Claim C5 -/

/-- **C5**: on a repository, when `stage_changes` reports failure, `sync`
returns overall failure and `commit` is never invoked. -/
theorem sync_stage_failure_aborts (e : SyncEnv) (ac as : Bool)
    (hrepo : e.isRepo = true) (hstage : e.stageOk = false) :
    (sync e ac as).1 = false ∧ GitOp.commitOp ∉ (sync e ac as).2 := by
  unfold sync
  rw [hrepo, hstage]
  cases e.hasRemote <;> simp

/-- Witness for `sync_stage_failure_aborts` at a concrete environment. -/
theorem sync_stage_failure_aborts_witness :
    (sync (SyncEnv.mk true true true false true true true true) true true).1 = false ∧
    GitOp.commitOp ∉ (sync (SyncEnv.mk true true true false true true true true) true true).2 :=
  sync_stage_failure_aborts (SyncEnv.mk true true true false true true true true)
    true true (by decide) (by decide)

/-! ## Claim C6 -/

/-- **C6**: on a repository where staging succeeds, the tree has changes,
auto-commit is enabled and the commit succeeds, `sync` reports overall
success whatever the push outcome (the environment's `pushOk` is left fully
unconstrained). -/
theorem sync_push_failure_swallowed (e : SyncEnv) (as : Bool)
    (hrepo : e.isRepo = true) (hstage : e.stageOk = true) (hopen : e.openOk = true)
    (hch : e.hasChanges = true) (hcommit : e.commitOk = true) :
    (sync e true as).1 = true := by
  unfold sync
  rw [hrepo, hstage, hopen, hch, hcommit]
  cases e.hasRemote <;> cases as <;> simp

/-- Witness for `sync_push_failure_swallowed` with a failing push. -/
theorem sync_push_failure_swallowed_witness :
    (sync (SyncEnv.mk true true true true true true true false) true true).1 = true :=
  sync_push_failure_swallowed (SyncEnv.mk true true true true true true true false)
    true (by decide) (by decide) (by decide) (by decide) (by decide)

/-! ## Claim C7 -/

/-- **C7**: after `complete()`, the task is completed with today's completion
date and no priority; a prior truthy priority is preserved under metadata key
`"pri"`; every other field — and every other metadata key — is unchanged. -/
theorem complete_spec (t : Task) (today : Date) :
    (t.complete today).completed = true ∧
    (t.complete today).completion_date = some today ∧
    (t.complete today).priority = none ∧
    (∀ p, t.priority = some p → p ≠ [] →
      mapFind "pri".toList (t.complete today).metadata = some p) ∧
    (t.complete today).creation_date = t.creation_date ∧
    (t.complete today).description = t.description ∧
    (t.complete today).projects = t.projects ∧
    (t.complete today).contexts = t.contexts ∧
    (t.complete today).effort = t.effort ∧
    (∀ k, k ≠ "pri".toList →
      mapFind k (t.complete today).metadata = mapFind k t.metadata) := by
  unfold Task.complete
  refine ⟨rfl, rfl, rfl, ?_, rfl, rfl, rfl, rfl, rfl, ?_⟩
  · intro p hp hne
    simp [hp, hne, mapFind_mapInsert_self]
  · intro k hk
    cases hpr : t.priority with
    | none => simp
    | some p =>
      by_cases hne : p = []
      · simp [hne]
      · have h2 : mapFind k (mapInsert ['p', 'r', 'i'] p t.metadata) = mapFind k t.metadata :=
          mapFind_mapInsert_other k ['p', 'r', 'i'] p t.metadata (by exact hk)
        simp [hne, h2]

/-- Witness for `complete_spec`: completing a `(B)`-priority task. -/
theorem complete_spec_witness :
    (Task.complete { priority := some ['B'] } ⟨2024, 1, 2⟩).completed = true ∧
    (Task.complete { priority := some ['B'] } ⟨2024, 1, 2⟩).priority = none ∧
    mapFind "pri".toList (Task.complete { priority := some ['B'] } ⟨2024, 1, 2⟩).metadata =
      some ['B'] := by
  have h := complete_spec { priority := some ['B'] } ⟨2024, 1, 2⟩
  exact ⟨h.1, h.2.2.1, h.2.2.2.1 ['B'] rfl (by decide)⟩

/-! ## Claim C9 -/

/-- **C9**: on an open repository, `stage_changes` with a path that does not
resolve inside the repository root signals the contract violation
(`ValueError`), while a path inside the root yields the plain boolean git
outcome — `false` on a git failure, never an exception. -/
theorem stage_changes_contract (repoDir p : PyStr) (gitOk : Bool) :
    (isSubpathB repoDir p = false →
      stage_changes true true repoDir (some p) gitOk = StageResult.valueError) ∧
    (isSubpathB repoDir p = true →
      stage_changes true true repoDir (some p) gitOk = StageResult.ok gitOk) := by
  constructor
  · intro h
    unfold stage_changes
    cases hpre : repoDir.isPrefixOf p <;> simp [h, hpre]
  · intro h
    unfold stage_changes
    simp [h, isPrefixOf_of_subpath h]

/-- Witness for `stage_changes_contract`: a path outside `/repo` raises the
contract violation; a path inside `/repo` with a failing git add returns
`false`. -/
theorem stage_changes_contract_witness :
    stage_changes true true "/repo".toList (some "/elsewhere/todo.txt".toList) true =
      StageResult.valueError ∧
    stage_changes true true "/repo".toList (some "/repo/todo.txt".toList) false =
      StageResult.ok false :=
  ⟨(stage_changes_contract "/repo".toList "/elsewhere/todo.txt".toList true).1 (by decide),
   (stage_changes_contract "/repo".toList "/repo/todo.txt".toList false).2 (by decide)⟩

/-! ## Claim C10 -/

/-- **C10**: the `Task(...)` constructor (with `__post_init__`) forces
`priority` to `None` whenever it is invoked with `completed = True`, whatever
priority argument was supplied. -/
theorem init_completed_clears_priority (priority : Option PyStr)
    (completion_date creation_date : Option Date) (description : PyStr)
    (projects contexts : List PyStr) (metadata : List (PyStr × PyStr))
    (effort : Option PyStr) :
    (Task.init true priority completion_date creation_date description
      projects contexts metadata effort).priority = none := by
  simp [Task.init]

/-! ## Round-trip development: token-shape lemmas -/

theorem digitCh_mem (n : Nat) :
    digitCh n ∈ ['0', '1', '2', '3', '4', '5', '6', '7', '8', '9'] := by
  unfold digitCh
  generalize n % 10 = k
  match k with
  | 0 => decide
  | 1 => decide
  | 2 => decide
  | 3 => decide
  | 4 => decide
  | 5 => decide
  | 6 => decide
  | 7 => decide
  | 8 => decide
  | m + 9 => simp

theorem digitVal_digitCh (n : Nat) : digitVal (digitCh n) = n % 10 := by
  unfold digitCh
  generalize hk : n % 10 = k
  have hlt : k < 10 := by omega
  interval_cases k <;> decide

theorem isDigitCh_digitCh (n : Nat) : isDigitCh (digitCh n) = true := by
  have h := digitCh_mem n
  simp only [List.mem_cons, List.not_mem_nil, or_false] at h
  rcases h with h | h | h | h | h | h | h | h | h | h <;> rw [h] <;> decide

theorem isWSChar_digitCh (n : Nat) : isWSChar (digitCh n) = false := by
  have h := digitCh_mem n
  simp only [List.mem_cons, List.not_mem_nil, or_false] at h
  rcases h with h | h | h | h | h | h | h | h | h | h <;> rw [h] <;> decide

theorem digitCh_ne_x (n : Nat) : digitCh n ≠ 'x' := by
  have h := digitCh_mem n
  simp only [List.mem_cons, List.not_mem_nil, or_false] at h
  rcases h with h | h | h | h | h | h | h | h | h | h <;> rw [h] <;> decide

theorem serialize_date_ne_nil (d : Date) : serialize_date d ≠ [] := by
  simp [serialize_date]

theorem serialize_date_wsFree (d : Date) : wsFree (serialize_date d) = true := by
  unfold serialize_date wsFree
  simp [isWSChar_digitCh, show isWSChar '-' = false from by decide]

theorem serialize_date_length (d : Date) : (serialize_date d).length = 10 := by
  simp [serialize_date]

theorem parse_date_chars (w : PyStr) (d : Date) (h : parse_date w = some d) :
    w.length = 10 ∧ ∀ c ∈ w, isDigitCh c = true ∨ c = '-' := by
  unfold parse_date at h
  split at h
  · rename_i y1 y2 y3 y4 m1 m2 dd1 dd2
    split at h
    · rename_i hdig
      simp only [Bool.and_eq_true] at hdig
      obtain ⟨⟨⟨⟨⟨⟨⟨h1, h2⟩, h3⟩, h4⟩, h5⟩, h6⟩, h7⟩, h8⟩ := hdig
      refine ⟨rfl, ?_⟩
      intro c hc
      simp only [List.mem_cons, List.not_mem_nil, or_false] at hc
      rcases hc with rfl | rfl | rfl | rfl | rfl | rfl | rfl | rfl | rfl | rfl
      · exact Or.inl h1
      · exact Or.inl h2
      · exact Or.inl h3
      · exact Or.inl h4
      · exact Or.inr rfl
      · exact Or.inl h5
      · exact Or.inl h6
      · exact Or.inr rfl
      · exact Or.inl h7
      · exact Or.inl h8
    · exact absurd h (by simp)
  · exact absurd h (by simp)

theorem parse_date_none_of_bad (w : PyStr) (c : Char) (hc : c ∈ w)
    (h1 : isDigitCh c = false) (h2 : c ≠ '-') : parse_date w = none := by
  cases hp : parse_date w with
  | none => rfl
  | some d =>
    rcases (parse_date_chars w d hp).2 c hc with hd | hd
    · rw [h1] at hd
      exact absurd hd (by simp)
    · exact absurd hd h2

theorem priMatch_shape (w : PyStr) (h : priMatch w = true) :
    ∃ c, w = ['(', c, ')'] ∧ 'A' ≤ c ∧ c ≤ 'Z' := by
  unfold priMatch at h
  split at h
  · rename_i c
    simp only [Bool.and_eq_true, decide_eq_true_eq] at h
    exact ⟨c, rfl, h.1, h.2⟩
  · exact absurd h (by simp)

theorem priMatch_false_of_length (w : PyStr) (h : w.length ≠ 3) :
    priMatch w = false := by
  cases hp : priMatch w with
  | false => rfl
  | true =>
    obtain ⟨c, hc, _, _⟩ := priMatch_shape w hp
    rw [hc] at h
    exact absurd rfl h

theorem priMatch_false_of_head (w : PyStr) (c : Char) (hw : w.head? = some c)
    (hc : c ≠ '(') : priMatch w = false := by
  cases hp : priMatch w with
  | false => rfl
  | true =>
    obtain ⟨c', hc', _, _⟩ := priMatch_shape w hp
    rw [hc'] at hw
    simp only [List.head?_cons, Option.some.injEq] at hw
    exact absurd hw.symm hc

theorem priMatch_false_of_colon (w : PyStr) (hc : ':' ∈ w) : priMatch w = false := by
  cases hp : priMatch w with
  | false => rfl
  | true =>
    obtain ⟨c, hw, hA, hZ⟩ := priMatch_shape w hp
    rw [hw] at hc
    simp only [List.mem_cons, List.not_mem_nil, or_false] at hc
    rcases hc with h | h | h
    · exact absurd h (by decide)
    · rw [← h] at hA
      exact absurd hA (by decide)
    · exact absurd h (by decide)

theorem splitColon_no_colon (w : PyStr) (h : ∀ c ∈ w, c ≠ ':') :
    splitColon w = none := by
  induction w with
  | nil => rfl
  | cons c rest ih =>
    have hc : ¬ c = ':' := h c (List.mem_cons_self c rest)
    simp only [splitColon, hc, if_false]
    rw [ih (fun x hx => h x (List.mem_cons_of_mem c hx))]

theorem splitColon_split (k v : PyStr) (h : ∀ c ∈ k, c ≠ ':') :
    splitColon (k ++ ':' :: v) = some (k, v) := by
  induction k with
  | nil => simp [splitColon]
  | cons c k' ih =>
    have hc : ¬ c = ':' := h c (List.mem_cons_self c k')
    rw [List.cons_append]
    simp only [splitColon, hc, if_false]
    rw [ih (fun x hx => h x (List.mem_cons_of_mem c hx))]

theorem prioOK_shape (p : PyStr) (h : prioOK (some p) = true) :
    ∃ c, p = [c] ∧ 'A' ≤ c ∧ c ≤ 'Z' := by
  cases p with
  | nil => exact Bool.noConfusion h
  | cons c cs =>
    cases cs with
    | nil =>
      have h' : ('A' ≤ c && c ≤ 'Z') = true := h
      simp only [Bool.and_eq_true, decide_eq_true_eq] at h'
      exact ⟨c, rfl, h'.1, h'.2⟩
    | cons d ds => exact Bool.noConfusion h

theorem isWSChar_false_of_ge_A (c : Char) (hA : 'A' ≤ c) : isWSChar c = false := by
  unfold isWSChar
  have h1 : ¬ c = ' ' := by rintro rfl; exact absurd hA (by decide)
  have h2 : ¬ c = '\t' := by rintro rfl; exact absurd hA (by decide)
  have h3 : ¬ c = '\n' := by rintro rfl; exact absurd hA (by decide)
  have h4 : ¬ c = '\r' := by rintro rfl; exact absurd hA (by decide)
  have h5 : ¬ c = '\x0b' := by rintro rfl; exact absurd hA (by decide)
  have h6 : ¬ c = '\x0c' := by rintro rfl; exact absurd hA (by decide)
  simp [h1, h2, h3, h4, h5, h6]

/-- A valid date survives serialization followed by parsing. -/
theorem parse_date_round (d : Date) (h : d.valid = true) :
    parse_date (serialize_date d) = some d := by
  obtain ⟨y, m, dd⟩ := d
  simp only [Date.valid, Bool.and_eq_true, decide_eq_true_eq] at h
  obtain ⟨⟨⟨⟨⟨hy1, hy2⟩, hm1⟩, hm2⟩, hd1⟩, hd2⟩ := h
  unfold serialize_date
  simp only [parse_date, isDigitCh_digitCh, Bool.and_self, if_true]
  have ey : ((digitVal (digitCh (y / 1000)) * 10 + digitVal (digitCh (y / 100))) * 10 +
      digitVal (digitCh (y / 10))) * 10 + digitVal (digitCh y) = y := by
    rw [digitVal_digitCh, digitVal_digitCh, digitVal_digitCh, digitVal_digitCh]
    omega
  have em : digitVal (digitCh (m / 10)) * 10 + digitVal (digitCh m) = m := by
    rw [digitVal_digitCh, digitVal_digitCh]
    omega
  have hdim : daysInMonth y m ≤ 31 := by
    unfold daysInMonth
    split
    · split <;> omega
    · split <;> omega
  have ed : digitVal (digitCh (dd / 10)) * 10 + digitVal (digitCh dd) = dd := by
    rw [digitVal_digitCh, digitVal_digitCh]
    omega
  rw [ey, em, ed]
  have hv : Date.valid ⟨y, m, dd⟩ = true := by
    simp [Date.valid, hy1, hy2, hm1, hm2, hd1, hd2]
  rw [hv]
  simp

/-! ## Round-trip development: the classification loop -/

theorem classify_word (t : Task) (dp : List PyStr) (w : PyStr)
    (h : wordOK w = true ∨ w = []) : classify (t, dp) w = (t, dp ++ [w]) := by
  rcases h with h | rfl
  · unfold wordOK at h
    simp only [Bool.and_eq_true, Bool.not_eq_true', decide_eq_true_eq] at h
    obtain ⟨⟨⟨⟨⟨⟨⟨hne, hws⟩, hplus⟩, hat⟩, hcol⟩, hdate⟩, hpri⟩, hx⟩ := h
    have hnocolon : ∀ c ∈ w, c ≠ ':' := by
      intro c hc he
      rw [List.any_eq_false] at hcol
      exact absurd (decide_eq_true_eq.mpr he) (by simpa using hcol c hc)
    unfold classify
    rw [splitColon_no_colon w hnocolon]
    simp [hplus, hat]
  · unfold classify
    rw [splitColon_no_colon [] (by intro c hc; simp at hc)]
    simp

theorem classify_project (t : Task) (dp : List PyStr) (p : PyStr) (hp : p ≠ []) :
    classify (t, dp) ('+' :: p) =
      ({ t with projects := setInsert p t.projects }, dp) := by
  have hlen : 1 < ('+' :: p).length := by
    cases p with
    | nil => exact absurd rfl hp
    | cons c cs => simp
  unfold classify
  simp [hlen, hp]

theorem classify_context (t : Task) (dp : List PyStr) (c : PyStr) (hc : c ≠ []) :
    classify (t, dp) ('@' :: c) =
      ({ t with contexts := setInsert c t.contexts }, dp) := by
  have hlen : 1 < ('@' :: c).length := by
    cases c with
    | nil => exact absurd rfl hc
    | cons d ds => simp
  unfold classify
  simp [hlen, hc]

theorem classify_effort (t : Task) (dp : List PyStr) (e : PyStr) :
    classify (t, dp) ("effort".toList ++ ':' :: e) =
      ({ t with effort := some e }, dp) := by
  unfold classify
  rw [splitColon_split "effort".toList e (by decide)]
  simp

theorem classify_meta (t : Task) (dp : List PyStr) (k v : PyStr)
    (hk : keyOK k = true) :
    classify (t, dp) (k ++ ':' :: v) =
      ({ t with metadata := mapInsert k v t.metadata }, dp) := by
  unfold keyOK nameOK at hk
  simp only [Bool.and_eq_true, Bool.not_eq_true', decide_eq_true_eq] at hk
  obtain ⟨⟨⟨⟨⟨hne, _⟩, hcol⟩, hplus⟩, hat⟩, heff⟩ := hk
  have hnocolon : ∀ c ∈ k, c ≠ ':' := by
    intro c hc he
    rw [List.any_eq_false] at hcol
    exact absurd (decide_eq_true_eq.mpr he) (by simpa using hcol c hc)
  have hsc : splitColon (k ++ ':' :: v) = some (k, v) := splitColon_split k v hnocolon
  have hhead : (k ++ ':' :: v).head? = k.head? := by
    cases k with
    | nil => exact absurd rfl hne
    | cons c k' => rfl
  have hplus2 : decide ((k ++ ':' :: v).head? = some '+') = false := by
    rw [hhead]; exact hplus
  have hat2 : decide ((k ++ ':' :: v).head? = some '@') = false := by
    rw [hhead]; exact hat
  have hplusP : ¬ (k.head? = some '+') := by simpa using hplus
  have hatP : ¬ (k.head? = some '@') := by simpa using hat
  have heff2 : k ≠ ['e', 'f', 'f', 'o', 'r', 't'] := heff
  unfold classify
  rw [hsc]
  simp [hplus2, hat2, hplusP, hatP, hne, heff2]

/-- The classification loop never touches the completion flag, priority or
dates of the task under construction. -/
theorem classify_keeps (s : Task × List PyStr) (w : PyStr) :
    (classify s w).1.completed = s.1.completed ∧
    (classify s w).1.priority = s.1.priority ∧
    (classify s w).1.completion_date = s.1.completion_date ∧
    (classify s w).1.creation_date = s.1.creation_date := by
  unfold classify
  split
  · simp
  · split
    · simp
    · split
      · split
        · simp
        · split <;> simp
      · simp

theorem foldl_classify_keeps (l : List PyStr) (s : Task × List PyStr) :
    ((l.foldl classify s).1.completed = s.1.completed ∧
     (l.foldl classify s).1.priority = s.1.priority ∧
     (l.foldl classify s).1.completion_date = s.1.completion_date ∧
     (l.foldl classify s).1.creation_date = s.1.creation_date) := by
  induction l generalizing s with
  | nil => exact ⟨rfl, rfl, rfl, rfl⟩
  | cons w ws ih =>
    rw [List.foldl_cons]
    obtain ⟨h1, h2, h3, h4⟩ := ih (classify s w)
    obtain ⟨g1, g2, g3, g4⟩ := classify_keeps s w
    exact ⟨h1.trans g1, h2.trans g2, h3.trans g3, h4.trans g4⟩

theorem foldl_classify_words (l : List PyStr)
    (hl : ∀ w ∈ l, wordOK w = true ∨ w = []) (t : Task) (dp : List PyStr) :
    l.foldl classify (t, dp) = (t, dp ++ l) := by
  induction l generalizing dp with
  | nil => simp
  | cons w ws ih =>
    rw [List.foldl_cons, classify_word t dp w (hl w (List.mem_cons_self w ws)),
      ih (fun x hx => hl x (List.mem_cons_of_mem w hx)) (dp ++ [w])]
    simp

theorem foldl_classify_projects (ps : List PyStr) (hne : ∀ p ∈ ps, p ≠ [])
    (t : Task) (dp : List PyStr) :
    (ps.map (fun p => '+' :: p)).foldl classify (t, dp) =
      ({ t with projects := ps.foldl (fun a p => setInsert p a) t.projects }, dp) := by
  induction ps generalizing t with
  | nil => simp
  | cons p ps' ih =>
    rw [List.map_cons, List.foldl_cons,
      classify_project t dp p (hne p (List.mem_cons_self p ps')),
      ih (fun x hx => hne x (List.mem_cons_of_mem p hx))
        { t with projects := setInsert p t.projects }]
    simp

theorem foldl_classify_contexts (cs : List PyStr) (hne : ∀ c ∈ cs, c ≠ [])
    (t : Task) (dp : List PyStr) :
    (cs.map (fun c => '@' :: c)).foldl classify (t, dp) =
      ({ t with contexts := cs.foldl (fun a c => setInsert c a) t.contexts }, dp) := by
  induction cs generalizing t with
  | nil => simp
  | cons c cs' ih =>
    rw [List.map_cons, List.foldl_cons,
      classify_context t dp c (hne c (List.mem_cons_self c cs')),
      ih (fun x hx => hne x (List.mem_cons_of_mem c hx))
        { t with contexts := setInsert c t.contexts }]
    simp

theorem foldl_classify_meta (m : List (PyStr × PyStr))
    (hk : ∀ kv ∈ m, keyOK kv.1 = true) (t : Task) (dp : List PyStr) :
    (m.map (fun kv => kv.1 ++ ':' :: kv.2)).foldl classify (t, dp) =
      ({ t with metadata := m.foldl (fun a kv => mapInsert kv.1 kv.2 a) t.metadata },
        dp) := by
  induction m generalizing t with
  | nil => simp
  | cons kv m' ih =>
    rw [List.map_cons, List.foldl_cons,
      classify_meta t dp kv.1 kv.2 (hk kv (List.mem_cons_self kv m')),
      ih (fun x hx => hk x (List.mem_cons_of_mem kv hx))
        { t with metadata := mapInsert kv.1 kv.2 t.metadata }]
    simp

/-! ## Round-trip development: rebuilding sorted sets and maps -/

theorem setInsert_ascending (x : PyStr) (l : List PyStr)
    (h : ∀ y ∈ l, lexLt y x = true) : setInsert x l = l ++ [x] := by
  induction l with
  | nil => rfl
  | cons y ys ih =>
    have hy := h y (List.mem_cons_self y ys)
    have hxy : lexLt x y = false := lexLt_asymm y x hy
    simp only [setInsert, hxy, hy, Bool.false_eq_true, if_false, if_true]
    rw [ih (fun z hz => h z (List.mem_cons_of_mem y hz))]
    rfl

theorem foldl_setInsert_sorted (ps acc : List PyStr)
    (h : List.Pairwise (fun a b => lexLt a b = true) (acc ++ ps)) :
    ps.foldl (fun a p => setInsert p a) acc = acc ++ ps := by
  induction ps generalizing acc with
  | nil => simp
  | cons p ps' ih =>
    rw [List.foldl_cons]
    have hasc : ∀ y ∈ acc, lexLt y p = true := by
      intro y hy
      exact (List.pairwise_append.mp h).2.2 y hy p (List.mem_cons_self p ps')
    rw [setInsert_ascending p acc hasc]
    have h' : List.Pairwise (fun a b => lexLt a b = true) ((acc ++ [p]) ++ ps') := by
      rw [List.append_assoc, List.singleton_append]
      exact h
    rw [ih (acc ++ [p]) h', List.append_assoc, List.singleton_append]

theorem mapInsert_ascending (k v : PyStr) (m : List (PyStr × PyStr))
    (h : ∀ kv ∈ m, lexLt kv.1 k = true) : mapInsert k v m = m ++ [(k, v)] := by
  induction m with
  | nil => rfl
  | cons kv rest ih =>
    obtain ⟨k', v'⟩ := kv
    have hk' := h (k', v') (List.mem_cons_self _ rest)
    have hkk : lexLt k k' = false := lexLt_asymm k' k hk'
    simp only [mapInsert, hkk, hk', Bool.false_eq_true, if_false, if_true]
    rw [ih (fun z hz => h z (List.mem_cons_of_mem _ hz))]
    rfl

theorem foldl_mapInsert_sorted (m acc : List (PyStr × PyStr))
    (h : List.Pairwise (fun a b => lexLt a.1 b.1 = true) (acc ++ m)) :
    m.foldl (fun a kv => mapInsert kv.1 kv.2 a) acc = acc ++ m := by
  induction m generalizing acc with
  | nil => simp
  | cons kv m' ih =>
    rw [List.foldl_cons]
    have hasc : ∀ z ∈ acc, lexLt z.1 kv.1 = true := by
      intro z hz
      exact (List.pairwise_append.mp h).2.2 z hz kv (List.mem_cons_self kv m')
    rw [mapInsert_ascending kv.1 kv.2 acc (fun z hz => hasc z hz)]
    have h' : List.Pairwise (fun a b => lexLt a.1 b.1 = true) ((acc ++ [kv]) ++ m') := by
      rw [List.append_assoc, List.singleton_append]
      exact h
    rw [ih (acc ++ [kv]) h', List.append_assoc, List.singleton_append]

/-! ## Round-trip development: the three consuming steps -/

theorem mem_of_head? {α : Type} {l : List α} {a : α} (h : l.head? = some a) :
    a ∈ l := by
  cases l with
  | nil => simp at h
  | cons b bs =>
    have : b = a := by simpa using h
    rw [← this]
    exact List.mem_cons_self b bs

theorem priStep_take (t : Task) (w : PyStr) (rest : List PyStr)
    (h : priMatch w = true) :
    priStep t (w :: rest) = ({ t with priority := some (priLetter w) }, rest) := by
  simp [priStep, h]

theorem priStep_skip (t : Task) (tokens : List PyStr)
    (h : ∀ w, tokens.head? = some w → priMatch w = false) :
    priStep t tokens = (t, tokens) := by
  cases tokens with
  | nil => rfl
  | cons w rest => simp [priStep, h w rfl]

theorem cdStep_not_completed (t : Task) (tokens : List PyStr)
    (h : t.completed = false) : cdStep t tokens = (t, tokens) := by
  cases tokens <;> simp [cdStep, h]

theorem cdStep_take (t : Task) (w : PyStr) (rest : List PyStr) (d : Date)
    (hc : t.completed = true) (hd : parse_date w = some d) :
    cdStep t (w :: rest) = ({ t with completion_date := some d }, rest) := by
  simp [cdStep, hc, hd]

theorem cdStep_skip (t : Task) (tokens : List PyStr)
    (h : ∀ w, tokens.head? = some w → parse_date w = none) :
    cdStep t tokens = (t, tokens) := by
  cases tokens with
  | nil => rfl
  | cons w rest =>
    cases hc : t.completed with
    | false => simp [cdStep, hc]
    | true => simp [cdStep, hc, h w rfl]

theorem crStep_take (t : Task) (w : PyStr) (rest : List PyStr) (d : Date)
    (hd : parse_date w = some d) :
    crStep t (w :: rest) = ({ t with creation_date := some d }, rest) := by
  simp [crStep, hd]

theorem crStep_skip (t : Task) (tokens : List PyStr)
    (h : ∀ w, tokens.head? = some w → parse_date w = none) :
    crStep t tokens = (t, tokens) := by
  cases tokens with
  | nil => rfl
  | cons w rest => simp [crStep, h w rfl]

/-! ## Round-trip development: the trailing tokens are neither priority
markers nor dates -/

theorem postToks_not_pri (t : Task) : ∀ w ∈ postToks t, priMatch w = false := by
  intro w hw
  unfold postToks at hw
  rcases List.mem_append.mp hw with hw1 | hmeta
  · rcases List.mem_append.mp hw1 with hw2 | heff
    · rcases List.mem_append.mp hw2 with hproj | hctx
      · obtain ⟨p, _, rfl⟩ := List.mem_map.mp hproj
        exact priMatch_false_of_head _ '+' rfl (by decide)
      · obtain ⟨c, _, rfl⟩ := List.mem_map.mp hctx
        exact priMatch_false_of_head _ '@' rfl (by decide)
    · cases he : t.effort with
      | none => rw [he] at heff; simp at heff
      | some e =>
        rw [he] at heff
        by_cases hne : e = []
        · simp [hne] at heff
        · simp only [hne, ne_eq, not_false_iff, if_true, List.mem_singleton] at heff
          rw [heff]
          exact priMatch_false_of_head _ 'e' rfl (by decide)
  · obtain ⟨kv, _, rfl⟩ := List.mem_map.mp hmeta
    exact priMatch_false_of_colon _
      (List.mem_append_right _ (List.mem_cons_self ':' kv.2))

theorem postToks_not_date (t : Task) :
    ∀ w ∈ postToks t, parse_date w = none := by
  intro w hw
  unfold postToks at hw
  rcases List.mem_append.mp hw with hw1 | hmeta
  · rcases List.mem_append.mp hw1 with hw2 | heff
    · rcases List.mem_append.mp hw2 with hproj | hctx
      · obtain ⟨p, _, rfl⟩ := List.mem_map.mp hproj
        exact parse_date_none_of_bad _ '+' (List.mem_cons_self '+' p) (by decide) (by decide)
      · obtain ⟨c, _, rfl⟩ := List.mem_map.mp hctx
        exact parse_date_none_of_bad _ '@' (List.mem_cons_self '@' c) (by decide) (by decide)
    · cases he : t.effort with
      | none => rw [he] at heff; simp at heff
      | some e =>
        rw [he] at heff
        by_cases hne : e = []
        · simp [hne] at heff
        · simp only [hne, ne_eq, not_false_iff, if_true, List.mem_singleton] at heff
          rw [heff]
          exact parse_date_none_of_bad _ 'e'
            (List.mem_append_left _ (by decide)) (by decide) (by decide)
  · obtain ⟨kv, _, rfl⟩ := List.mem_map.mp hmeta
    exact parse_date_none_of_bad _ ':'
      (List.mem_append_right _ (List.mem_cons_self ':' kv.2)) (by decide) (by decide)

theorem mid_not_pri (w : PyStr) (h : wordOK w = true ∨ w = []) :
    priMatch w = false := by
  rcases h with h | rfl
  · unfold wordOK at h
    simp only [Bool.and_eq_true, Bool.not_eq_true'] at h
    exact h.1.2
  · rfl

theorem mid_not_date (w : PyStr) (h : wordOK w = true ∨ w = []) :
    parse_date w = none := by
  rcases h with h | rfl
  · unfold wordOK at h
    simp only [Bool.and_eq_true, Bool.not_eq_true'] at h
    have := h.1.1.2
    rwa [Option.isNone_iff_eq_none] at this
  · rfl

theorem Task.ext' (a b : Task) (h1 : a.completed = b.completed)
    (h2 : a.priority = b.priority) (h3 : a.completion_date = b.completion_date)
    (h4 : a.creation_date = b.creation_date) (h5 : a.description = b.description)
    (h6 : a.projects = b.projects) (h7 : a.contexts = b.contexts)
    (h8 : a.metadata = b.metadata) (h9 : a.effort = b.effort) : a = b := by
  cases a
  cases b
  simp_all

/-! ## Round-trip development: the token-level round trip -/

/-- The token phase of `parse_task` rebuilds exactly the task whose
serialization produced the tokens: the serialized priority, date, description,
tag, effort and metadata tokens (with `mid` standing for the description's
word list, possibly a single empty token, possibly nothing) are consumed into
the matching fields. -/
theorem parseTokens_eq (t : Task) (mid : List PyStr)
    (hpri : prioOK t.priority = true)
    (hcc : t.completed = false → t.completion_date = none)
    (hcr : t.completed = true → t.creation_date ≠ none → t.completion_date ≠ none)
    (hcdv : ∀ d, t.completion_date = some d → d.valid = true)
    (hcrv : ∀ d, t.creation_date = some d → d.valid = true)
    (hmid : ∀ w ∈ mid, wordOK w = true ∨ w = [])
    (hdesc : strip (joinSpace mid) = t.description)
    (hpj : List.Pairwise (fun a b => lexLt a b = true) t.projects)
    (hpjn : ∀ p ∈ t.projects, p ≠ [])
    (hcx : List.Pairwise (fun a b => lexLt a b = true) t.contexts)
    (hcxn : ∀ c ∈ t.contexts, c ≠ [])
    (hmd : List.Pairwise (fun a b => lexLt a.1 b.1 = true) t.metadata)
    (hmdk : ∀ kv ∈ t.metadata, keyOK kv.1 = true)
    (heffn : ∀ e, t.effort = some e → e ≠ []) :
    parseTokens t.completed
      (priToks t ++ (cdToks t ++ (crToks t ++ (mid ++ postToks t)))) = t := by
  have hmp_nopri : ∀ w, (mid ++ postToks t).head? = some w → priMatch w = false := by
    intro w hw
    rcases List.mem_append.mp (mem_of_head? hw) with h | h
    · exact mid_not_pri w (hmid w h)
    · exact postToks_not_pri t w h
  have hmp_nodate : ∀ w, (mid ++ postToks t).head? = some w → parse_date w = none := by
    intro w hw
    rcases List.mem_append.mp (mem_of_head? hw) with h | h
    · exact mid_not_date w (hmid w h)
    · exact postToks_not_date t w h
  have htail : ∀ (C : Bool) (P : Option PyStr) (CD CRD : Option Date),
      (mid ++ postToks t).foldl classify
        ({ completed := C, priority := P, completion_date := CD,
           creation_date := CRD, description := [], projects := [], contexts := [],
           metadata := [], effort := none }, []) =
      ({ completed := C, priority := P, completion_date := CD,
         creation_date := CRD, description := [], projects := t.projects,
         contexts := t.contexts, metadata := t.metadata, effort := t.effort },
        mid) := by
    intro C P CD CRD
    rw [List.foldl_append, foldl_classify_words mid hmid _ []]
    simp only [List.nil_append]
    unfold postToks
    rw [List.foldl_append, List.foldl_append, List.foldl_append,
      foldl_classify_projects t.projects hpjn _ mid,
      foldl_classify_contexts t.contexts hcxn _ mid]
    have hpjv : List.foldl (fun a p => setInsert p a) ([] : List PyStr) t.projects =
        t.projects := by
      rw [foldl_setInsert_sorted t.projects [] (by simpa using hpj)]
      simp
    have hcxv : List.foldl (fun a c => setInsert c a) ([] : List PyStr) t.contexts =
        t.contexts := by
      rw [foldl_setInsert_sorted t.contexts [] (by simpa using hcx)]
      simp
    have hmdv : List.foldl (fun a kv => mapInsert kv.1 kv.2 a)
        ([] : List (PyStr × PyStr)) t.metadata = t.metadata := by
      rw [foldl_mapInsert_sorted t.metadata [] (by simpa using hmd)]
      simp
    cases he : t.effort with
    | none =>
      simp only [he, List.foldl_nil]
      rw [foldl_classify_meta t.metadata hmdk _ mid]
      simp [hpjv, hcxv, hmdv]
    | some e =>
      have hene : e ≠ [] := heffn e he
      simp only [he, hene, ne_eq, not_false_iff, if_true, List.foldl_cons,
        List.foldl_nil]
      have hbridge : ("effort:".toList ++ e) = ("effort".toList ++ ':' :: e) := rfl
      rw [hbridge, classify_effort, foldl_classify_meta t.metadata hmdk _ mid]
      simp [hpjv, hcxv, hmdv]
  cases hP : t.priority with
  | some p =>
    obtain ⟨c, rfl, hA, hZ⟩ := prioOK_shape p (by rwa [hP] at hpri)
    have hpt : priToks t = [['(', c, ')']] := by
      simp [priToks, hP]
    have hpm : priMatch ['(', c, ')'] = true := by
      simp [priMatch, hA, hZ]
    rw [hpt, List.singleton_append]
    unfold parseTokens
    rw [priStep_take _ _ _ hpm]
    simp only [priLetter]
    cases hC : t.completed with
    | false =>
      have hcd0 : t.completion_date = none := hcc hC
      have hcdt : cdToks t = [] := by simp [cdToks, hC]
      rw [hcdt, List.nil_append]
      rw [cdStep_not_completed _ _ (by simp [hC])]
      cases hcrd : t.creation_date with
      | some d =>
        have hcrt : crToks t = [serialize_date d] := by simp [crToks, hcrd]
        rw [hcrt, List.singleton_append,
          crStep_take _ _ _ d (parse_date_round d (hcrv d hcrd))]
        simp only
        rw [htail false (some [c]) none (some d)]
        refine Task.ext' _ t (by simp [hC]) (by simp [hP]) (by simp [hcd0])
          (by simp [hcrd]) (by simpa using hdesc) (by simp) (by simp) (by simp)
          (by simp)
      | none =>
        have hcrt : crToks t = [] := by simp [crToks, hcrd]
        rw [hcrt, List.nil_append, crStep_skip _ _ hmp_nodate]
        simp only
        rw [htail false (some [c]) none none]
        refine Task.ext' _ t (by simp [hC]) (by simp [hP]) (by simp [hcd0])
          (by simp [hcrd]) (by simpa using hdesc) (by simp) (by simp) (by simp)
          (by simp)
    | true =>
      cases hcd : t.completion_date with
      | some d =>
        have hcdt : cdToks t = [serialize_date d] := by simp [cdToks, hC, hcd]
        rw [hcdt, List.singleton_append,
          cdStep_take _ _ _ d (by simp [hC]) (parse_date_round d (hcdv d hcd))]
        simp only
        cases hcrd : t.creation_date with
        | some d2 =>
          have hcrt : crToks t = [serialize_date d2] := by simp [crToks, hcrd]
          rw [hcrt, List.singleton_append,
            crStep_take _ _ _ d2 (parse_date_round d2 (hcrv d2 hcrd))]
          simp only
          rw [htail true (some [c]) (some d) (some d2)]
          refine Task.ext' _ t (by simp [hC]) (by simp [hP]) (by simp [hcd])
            (by simp [hcrd]) (by simpa using hdesc) (by simp) (by simp) (by simp)
            (by simp)
        | none =>
          have hcrt : crToks t = [] := by simp [crToks, hcrd]
          rw [hcrt, List.nil_append, crStep_skip _ _ hmp_nodate]
          simp only
          rw [htail true (some [c]) (some d) none]
          refine Task.ext' _ t (by simp [hC]) (by simp [hP]) (by simp [hcd])
            (by simp [hcrd]) (by simpa using hdesc) (by simp) (by simp) (by simp)
            (by simp)
      | none =>
        have hcrd : t.creation_date = none := by
          by_contra hne
          exact absurd hcd (hcr hC (by simpa using hne))
        have hcdt : cdToks t = [] := by simp [cdToks, hC, hcd]
        have hcrt : crToks t = [] := by simp [crToks, hcrd]
        rw [hcdt, List.nil_append, hcrt, List.nil_append,
          cdStep_skip _ _ hmp_nodate, crStep_skip _ _ hmp_nodate]
        simp only
        rw [htail true (some [c]) none none]
        refine Task.ext' _ t (by simp [hC]) (by simp [hP]) (by simp [hcd])
          (by simp [hcrd]) (by simpa using hdesc) (by simp) (by simp) (by simp)
          (by simp)
  | none =>
    have hpt : priToks t = [] := by simp [priToks, hP]
    rw [hpt, List.nil_append]
    unfold parseTokens
    cases hC : t.completed with
    | false =>
      have hcd0 : t.completion_date = none := hcc hC
      have hcdt : cdToks t = [] := by simp [cdToks, hC]
      rw [hcdt, List.nil_append]
      cases hcrd : t.creation_date with
      | some d =>
        have hcrt : crToks t = [serialize_date d] := by simp [crToks, hcrd]
        rw [hcrt, List.singleton_append]
        rw [priStep_skip _ _ (by
          intro w hw
          have : serialize_date d = w := by simpa using hw
          rw [← this]
          exact priMatch_false_of_length _ (by rw [serialize_date_length]; omega))]
        simp only
        rw [cdStep_not_completed _ _ (by simp [hC]),
          crStep_take _ _ _ d (parse_date_round d (hcrv d hcrd))]
        simp only
        rw [htail false none none (some d)]
        refine Task.ext' _ t (by simp [hC]) (by simp [hP]) (by simp [hcd0])
          (by simp [hcrd]) (by simpa using hdesc) (by simp) (by simp) (by simp)
          (by simp)
      | none =>
        have hcrt : crToks t = [] := by simp [crToks, hcrd]
        rw [hcrt, List.nil_append]
        rw [priStep_skip _ _ hmp_nopri]
        simp only
        rw [cdStep_not_completed _ _ (by simp [hC]), crStep_skip _ _ hmp_nodate]
        simp only
        rw [htail false none none none]
        refine Task.ext' _ t (by simp [hC]) (by simp [hP]) (by simp [hcd0])
          (by simp [hcrd]) (by simpa using hdesc) (by simp) (by simp) (by simp)
          (by simp)
    | true =>
      cases hcd : t.completion_date with
      | some d =>
        have hcdt : cdToks t = [serialize_date d] := by simp [cdToks, hC, hcd]
        rw [hcdt, List.singleton_append]
        rw [priStep_skip _ _ (by
          intro w hw
          have : serialize_date d = w := by simpa using hw
          rw [← this]
          exact priMatch_false_of_length _ (by rw [serialize_date_length]; omega))]
        simp only
        rw [cdStep_take _ _ _ d (by simp [hC]) (parse_date_round d (hcdv d hcd))]
        simp only
        cases hcrd : t.creation_date with
        | some d2 =>
          have hcrt : crToks t = [serialize_date d2] := by simp [crToks, hcrd]
          rw [hcrt, List.singleton_append,
            crStep_take _ _ _ d2 (parse_date_round d2 (hcrv d2 hcrd))]
          simp only
          rw [htail true none (some d) (some d2)]
          refine Task.ext' _ t (by simp [hC]) (by simp [hP]) (by simp [hcd])
            (by simp [hcrd]) (by simpa using hdesc) (by simp) (by simp) (by simp)
            (by simp)
        | none =>
          have hcrt : crToks t = [] := by simp [crToks, hcrd]
          rw [hcrt, List.nil_append, crStep_skip _ _ hmp_nodate]
          simp only
          rw [htail true none (some d) none]
          refine Task.ext' _ t (by simp [hC]) (by simp [hP]) (by simp [hcd])
            (by simp [hcrd]) (by simpa using hdesc) (by simp) (by simp) (by simp)
            (by simp)
      | none =>
        have hcrd : t.creation_date = none := by
          by_contra hne
          exact absurd hcd (hcr hC (by simpa using hne))
        have hcdt : cdToks t = [] := by simp [cdToks, hC, hcd]
        have hcrt : crToks t = [] := by simp [crToks, hcrd]
        rw [hcdt, List.nil_append, hcrt, List.nil_append]
        rw [priStep_skip _ _ hmp_nopri]
        simp only
        rw [cdStep_skip _ _ hmp_nodate, crStep_skip _ _ hmp_nodate]
        simp only
        rw [htail true none none none]
        refine Task.ext' _ t (by simp [hC]) (by simp [hP]) (by simp [hcd])
          (by simp [hcrd]) (by simpa using hdesc) (by simp) (by simp) (by simp)
          (by simp)

/-! ## Round-trip development: line-level helpers -/

theorem stripLeft_append (a b : PyStr) :
    stripLeft (a ++ b) = if stripLeft a = [] then stripLeft b else stripLeft a ++ b := by
  induction a with
  | nil => simp [stripLeft]
  | cons c a' ih =>
    by_cases hc : isWSChar c = true
    · simp only [List.cons_append, stripLeft, hc, if_true]
      exact ih
    · simp only [List.cons_append, stripLeft, hc, Bool.false_eq_true, if_false]
      simp

theorem stripRight_append_space (x : PyStr) : stripRight (x ++ [' ']) = stripRight x := by
  unfold stripRight
  rw [List.reverse_append]
  simp [stripLeft, isWSChar]

theorem strip_append_space (s : PyStr) : strip (s ++ [' ']) = strip s := by
  unfold strip
  rw [stripLeft_append]
  by_cases h : stripLeft s = []
  · simp [h, stripLeft, isWSChar, stripRight]
  · simp only [h, if_false]
    exact stripRight_append_space (stripLeft s)

theorem strip_cons_space (s : PyStr) : strip (' ' :: s) = strip s := by
  unfold strip
  simp [stripLeft, isWSChar]

theorem stripLeft_ne_nil (c : Char) (s : PyStr) (h : isWSChar c = false) :
    stripLeft (c :: s) ≠ [] := by
  simp [stripLeft, h]

theorem strip_ne_nil_of_head (c : Char) (s : PyStr) (h : isWSChar c = false) :
    strip (c :: s) ≠ [] := by
  unfold strip stripRight
  rw [stripLeft_eq_self (c :: s) ?hd]
  case hd =>
    intro c' hc'
    have : c = c' := by simpa using hc'
    rw [← this]
    exact h
  intro he
  have : stripLeft (c :: s).reverse = [] := by
    have := congrArg List.reverse he
    simpa using this
  rw [List.reverse_cons] at this
  rw [stripLeft_append] at this
  by_cases h2 : stripLeft s.reverse = []
  · rw [if_pos h2] at this
    simp [stripLeft, h] at this
  · rw [if_neg h2] at this
    simp at this

theorem joinSpace_ne_nil (f : PyStr) (rest : List PyStr) (hf : f ≠ []) :
    joinSpace (f :: rest) ≠ [] := by
  cases rest with
  | nil => exact hf
  | cons u us =>
    rw [joinSpace_cons _ _ (by simp)]
    cases f with
    | nil => exact absurd rfl hf
    | cons c cs => simp

theorem joinSpace_getLast_not_ws (ts : List PyStr) (h : ts ≠ [])
    (ht : ∀ t ∈ ts, t ≠ [] ∧ wsFree t = true) :
    ∀ c, (joinSpace ts).getLast? = some c → isWSChar c = false := by
  intro c hc
  obtain ⟨ts'', u, hu⟩ : ∃ ts'' u, ts = ts'' ++ [u] := by
    refine ⟨ts.dropLast, ts.getLast h, ?_⟩
    rw [List.dropLast_append_getLast]
  have hum : u ∈ ts := by rw [hu]; exact List.mem_append_right _ (List.mem_cons_self u [])
  obtain ⟨hun, huws⟩ := ht u hum
  rw [hu, getLast?_joinSpace ts'' u hun] at hc
  have hmu : c ∈ u := List.mem_of_mem_getLast? hc
  have := List.all_eq_true.mp huws c hmu
  simpa using this

theorem joinSpace_head_not_ws (ts : List PyStr) (h : ts ≠ [])
    (ht : ∀ t ∈ ts, t ≠ [] ∧ wsFree t = true) :
    ∀ c, (joinSpace ts).head? = some c → isWSChar c = false := by
  intro c hc
  cases ts with
  | nil => exact absurd rfl h
  | cons f rest =>
    obtain ⟨hfn, hfws⟩ := ht f (List.mem_cons_self f rest)
    rw [head?_joinSpace f rest hfn] at hc
    exact wsFree_head f hfws c hc

theorem take2_ne_of_head (c1 : Char) (s : PyStr) (h : c1 ≠ 'x') :
    (c1 :: s).take 2 ≠ ['x', ' '] := by
  cases s <;> simp [List.take, h]

theorem take2_ne_of_second (c1 c2 : Char) (s : PyStr) (h : c2 ≠ ' ') :
    (c1 :: c2 :: s).take 2 ≠ ['x', ' '] := by
  simp [List.take, h]

theorem joinSpace_take2_long (f : PyStr) (rest : List PyStr) (extra : PyStr)
    (hlen : 2 ≤ f.length) (hws : wsFree f = true) :
    (joinSpace (f :: rest) ++ extra).take 2 ≠ ['x', ' '] := by
  obtain ⟨c1, c2, f'', rfl⟩ : ∃ c1 c2 f'', f = c1 :: c2 :: f'' := by
    cases f with
    | nil => simp at hlen
    | cons a as =>
      cases as with
      | nil => simp at hlen
      | cons b bs => exact ⟨a, b, bs, rfl⟩
  have hc2 : c2 ≠ ' ' := by
    intro he
    have := List.all_eq_true.mp hws c2 (by simp)
    rw [he] at this
    simp [isWSChar] at this
  cases rest with
  | nil =>
    simp only [joinSpace, List.cons_append]
    exact take2_ne_of_second c1 c2 _ hc2
  | cons u us =>
    rw [joinSpace_cons _ _ (by simp)]
    simp only [List.cons_append]
    exact take2_ne_of_second c1 c2 _ hc2

theorem joinSpace_take2_word (f : PyStr) (rest : List PyStr) (extra : PyStr)
    (hw : wordOK f = true) :
    (joinSpace (f :: rest) ++ extra).take 2 ≠ ['x', ' '] := by
  have hx : f ≠ ['x'] := by
    unfold wordOK at hw
    simp only [Bool.and_eq_true] at hw
    simpa using hw.2
  have hws : wsFree f = true := by
    unfold wordOK at hw
    simp only [Bool.and_eq_true] at hw
    exact hw.1.1.1.1.1.1.2
  have hne : f ≠ [] := by
    unfold wordOK at hw
    simp only [Bool.and_eq_true] at hw
    simpa using hw.1.1.1.1.1.1.1
  cases f with
  | nil => exact absurd rfl hne
  | cons c1 cs =>
    cases cs with
    | nil =>
      have hc1 : c1 ≠ 'x' := by
        intro he
        rw [he] at hx
        exact hx rfl
      cases rest with
      | nil =>
        simp only [joinSpace, List.singleton_append]
        exact take2_ne_of_head c1 _ hc1
      | cons u us =>
        rw [joinSpace_cons _ _ (by simp)]
        simp only [List.singleton_append, List.cons_append]
        exact take2_ne_of_head c1 _ hc1
    | cons c2 cs' =>
      exact joinSpace_take2_long (c1 :: c2 :: cs') rest extra (by simp) hws

/-- A line starting with the completion marker `"x "` parses as a completed
task over the tokens of its remainder. -/
theorem parse_task_x (s : PyStr) :
    parse_task ('x' :: ' ' :: s) = parseTokens true (splitSpace (strip s)) := by
  unfold parse_task
  rw [if_neg (strip_ne_nil_of_head 'x' _ (by decide))]
  simp [List.take, List.drop]

/-- A nonblank line not starting with `"x "` parses as an uncompleted task
over its own tokens. -/
theorem parse_task_not_x (line : PyStr) (hne : strip line ≠ [])
    (hx : line.take 2 ≠ ['x', ' ']) :
    parse_task line = parseTokens false (splitSpace (strip line)) := by
  unfold parse_task
  rw [if_neg hne]
  simp [hx]

/-- Splicing the already-joined description back into the outer join: the
serialized line with the description as one part equals the join with the
description's words inlined. -/
theorem joinSpace_flatten (A B ws : List PyStr) (hws : ws ≠ []) :
    joinSpace (A ++ ([joinSpace ws] ++ B)) = joinSpace (A ++ (ws ++ B)) := by
  cases hA : A with
  | nil =>
    cases hB : B with
    | nil => simp [joinSpace]
    | cons b bs =>
      simp only [List.nil_append]
      rw [joinSpace_append [joinSpace ws] (b :: bs) (by simp) (by simp),
        joinSpace_append ws (b :: bs) hws (by simp)]
      rfl
  | cons a as =>
    cases hB : B with
    | nil =>
      simp only [List.append_nil]
      rw [joinSpace_append (a :: as) [joinSpace ws] (by simp) (by simp),
        joinSpace_append (a :: as) ws (by simp) hws]
      rfl
    | cons b bs =>
      rw [joinSpace_append (a :: as) ([joinSpace ws] ++ (b :: bs)) (by simp) (by simp),
        joinSpace_append (a :: as) (ws ++ (b :: bs)) (by simp) (by simp [hws]),
        joinSpace_append [joinSpace ws] (b :: bs) (by simp) (by simp),
        joinSpace_append ws (b :: bs) hws (by simp)]
      rfl

theorem priToks_tokOK (t : Task) (hpri : prioOK t.priority = true) :
    ∀ w ∈ priToks t, (w ≠ [] ∧ wsFree w = true) ∧ 2 ≤ w.length := by
  intro w hw
  cases hP : t.priority with
  | none => rw [priToks, hP] at hw; simp at hw
  | some p =>
    obtain ⟨c, rfl, hA, hZ⟩ := prioOK_shape p (by rwa [hP] at hpri)
    simp only [priToks, hP] at hw
    simp only [ne_eq, List.cons_ne_self, not_false_iff, if_true,
      List.mem_singleton, reduceCtorEq] at hw
    simp only [List.singleton_append] at hw
    rw [hw]
    refine ⟨⟨by simp, ?_⟩, by simp⟩
    unfold wsFree
    simp [isWSChar_false_of_ge_A c hA, show isWSChar '(' = false from by decide,
      show isWSChar ')' = false from by decide]

theorem cdToks_tokOK (t : Task) :
    ∀ w ∈ cdToks t, (w ≠ [] ∧ wsFree w = true) ∧ 2 ≤ w.length := by
  intro w hw
  unfold cdToks at hw
  rcases hC : t.completed with _ | _ <;> rw [hC] at hw
  · simp at hw
  · cases hcd : t.completion_date with
    | none => rw [hcd] at hw; simp at hw
    | some d =>
      rw [hcd] at hw
      simp at hw
      rw [hw]
      exact ⟨⟨serialize_date_ne_nil d, serialize_date_wsFree d⟩,
        by rw [serialize_date_length]; omega⟩

theorem crToks_tokOK (t : Task) :
    ∀ w ∈ crToks t, (w ≠ [] ∧ wsFree w = true) ∧ 2 ≤ w.length := by
  intro w hw
  unfold crToks at hw
  cases hcd : t.creation_date with
  | none => rw [hcd] at hw; simp at hw
  | some d =>
    rw [hcd] at hw
    simp at hw
    rw [hw]
    exact ⟨⟨serialize_date_ne_nil d, serialize_date_wsFree d⟩,
      by rw [serialize_date_length]; omega⟩

theorem postToks_tokOK (t : Task)
    (hpjn : ∀ p ∈ t.projects, nameOK p = true)
    (hcxn : ∀ c ∈ t.contexts, nameOK c = true)
    (hmdk : ∀ kv ∈ t.metadata, keyOK kv.1 = true ∧ valOK kv.2 = true)
    (heffn : ∀ e, t.effort = some e → nameOK e = true) :
    ∀ w ∈ postToks t, w ≠ [] ∧ wsFree w = true := by
  intro w hw
  unfold postToks at hw
  rcases List.mem_append.mp hw with hw1 | hmeta
  · rcases List.mem_append.mp hw1 with hw2 | heff
    · rcases List.mem_append.mp hw2 with hproj | hctx
      · obtain ⟨p, hp, rfl⟩ := List.mem_map.mp hproj
        have hn := hpjn p hp
        unfold nameOK at hn
        simp only [Bool.and_eq_true] at hn
        refine ⟨by simp, ?_⟩
        unfold wsFree
        simp only [List.all_cons, Bool.and_eq_true]
        exact ⟨by decide, hn.2⟩
      · obtain ⟨c, hc, rfl⟩ := List.mem_map.mp hctx
        have hn := hcxn c hc
        unfold nameOK at hn
        simp only [Bool.and_eq_true] at hn
        refine ⟨by simp, ?_⟩
        unfold wsFree
        simp only [List.all_cons, Bool.and_eq_true]
        exact ⟨by decide, hn.2⟩
    · cases he : t.effort with
      | none => rw [he] at heff; simp at heff
      | some e =>
        rw [he] at heff
        have hn := heffn e he
        unfold nameOK at hn
        simp only [Bool.and_eq_true] at hn
        have hene : e ≠ [] := by simpa using hn.1
        simp only [hene, ne_eq, not_false_iff, if_true, List.mem_singleton] at heff
        rw [heff]
        refine ⟨by simp, ?_⟩
        unfold wsFree
        rw [List.all_append]
        simp only [Bool.and_eq_true]
        exact ⟨by decide, hn.2⟩
  · obtain ⟨kv, hkv, rfl⟩ := List.mem_map.mp hmeta
    obtain ⟨hk, hv⟩ := hmdk kv hkv
    unfold keyOK nameOK at hk
    simp only [Bool.and_eq_true] at hk
    refine ⟨by simp, ?_⟩
    unfold wsFree
    rw [List.all_append]
    simp only [List.all_cons, Bool.and_eq_true]
    exact ⟨hk.1.1.1.1.2, by decide, hv⟩

/-! ## Claim C8 development -/

theorem stripRight_append (a b : PyStr) :
    stripRight (a ++ b) = if stripRight b = [] then stripRight a else a ++ stripRight b := by
  unfold stripRight
  rw [List.reverse_append, stripLeft_append]
  by_cases h : stripLeft b.reverse = []
  · rw [if_pos h, if_pos (by rw [h]; rfl)]
  · rw [if_neg h, if_neg (by simpa using h)]
    rw [List.reverse_append, List.reverse_reverse]

theorem stripRight_cons (c : Char) (s : PyStr) :
    stripRight (c :: s) = if stripRight s = [] then stripRight [c] else c :: stripRight s := by
  have h := stripRight_append [c] s
  simpa using h

theorem cdStep_keeps (t : Task) (tokens : List PyStr) :
    (cdStep t tokens).1.priority = t.priority ∧
    (cdStep t tokens).1.completed = t.completed := by
  unfold cdStep
  split
  · split
    · split <;> simp
    · simp
  · simp

theorem crStep_keeps (t : Task) (tokens : List PyStr) :
    (crStep t tokens).1.priority = t.priority ∧
    (crStep t tokens).1.completed = t.completed := by
  unfold crStep
  split
  · split <;> simp
  · simp

/-- After a priority marker is consumed, no later parsing step changes the
completion flag or the priority. -/
theorem parseTokens_pri_of_head (w : PyStr) (ts : List PyStr)
    (hw : priMatch w = true) :
    (parseTokens true (w :: ts)).completed = true ∧
    (parseTokens true (w :: ts)).priority = some (priLetter w) := by
  unfold parseTokens
  rw [priStep_take _ _ _ hw]
  obtain ⟨hcd1, hcd2⟩ := cdStep_keeps { completed := true, priority := some (priLetter w) } ts
  obtain ⟨hcr1, hcr2⟩ := crStep_keeps (cdStep { completed := true, priority := some (priLetter w) } ts).1
    (cdStep { completed := true, priority := some (priLetter w) } ts).2
  obtain ⟨hf1, hf2, _, _⟩ := foldl_classify_keeps
    (crStep (cdStep { completed := true, priority := some (priLetter w) } ts).1
      (cdStep { completed := true, priority := some (priLetter w) } ts).2).2
    ((crStep (cdStep { completed := true, priority := some (priLetter w) } ts).1
      (cdStep { completed := true, priority := some (priLetter w) } ts).2).1, [])
  constructor
  · simp only []
    rw [hf1]
    simp only []
    rw [hcr2, hcd2]
  · simp only []
    rw [hf2]
    simp only []
    rw [hcr1, hcd1]

/-! ## Claim C8 -/

/-- **C8**: a line beginning with the completion marker `"x "` immediately
followed by a priority marker `(P)` (as its own token: end of line or a space
after it) parses to a task that is completed *and* still carries priority `P`
— parsing does not clear the priority of an already-completed line. -/
theorem parse_completed_line_keeps_priority (P : Char) (rest : PyStr)
    (hA : 'A' ≤ P) (hZ : P ≤ 'Z') (hr : rest = [] ∨ rest.head? = some ' ') :
    (parse_task ('x' :: ' ' :: '(' :: P :: ')' :: rest)).completed = true ∧
    (parse_task ('x' :: ' ' :: '(' :: P :: ')' :: rest)).priority = some [P] := by
  have hpm : priMatch ['(', P, ')'] = true := by simp [priMatch, hA, hZ]
  have hPnw : isWSChar P = false := isWSChar_false_of_ge_A P hA
  have hPns : P ≠ ' ' := by
    intro he
    rw [he] at hPnw
    simp [isWSChar] at hPnw
  have hx : parse_task ('x' :: ' ' :: '(' :: P :: ')' :: rest) =
      parseTokens true (splitSpace (strip ('(' :: P :: ')' :: rest))) :=
    parse_task_x ('(' :: P :: ')' :: rest)
  rw [hx]
  have hsl : stripLeft ('(' :: P :: ')' :: rest) = '(' :: P :: ')' :: rest := by
    apply stripLeft_eq_self
    intro c hc
    have : '(' = c := by simpa using hc
    rw [← this]
    decide
  obtain ⟨ts, hts⟩ : ∃ ts, splitSpace (strip ('(' :: P :: ')' :: rest)) =
      ['(', P, ')'] :: ts := by
    unfold strip
    rw [hsl]
    rcases hr with rfl | hhead
    · refine ⟨[], ?_⟩
      have h1 : stripRight ['(', P, ')'] = ['(', P, ')'] := by
        apply stripRight_eq_self
        intro c hc
        have : ')' = c := by simpa using hc
        rw [← this]
        decide
      rw [h1]
      rw [splitSpace_no_space _ (by
        intro hm
        simp only [List.mem_cons, List.not_mem_nil, or_false] at hm
        rcases hm with h | h | h
        · exact absurd h.symm (by decide)
        · exact hPns h.symm
        · exact absurd h.symm (by decide))]
    · obtain ⟨r, rfl⟩ : ∃ r, rest = ' ' :: r := by
        cases rest with
        | nil => simp at hhead
        | cons a as =>
          have : a = ' ' := by simpa using hhead
          exact ⟨as, by rw [this]⟩
      have hsplit : ('(' :: P :: ')' :: ' ' :: r : PyStr) =
          ['(', P, ')'] ++ ' ' :: r := rfl
      rw [hsplit, stripRight_append]
      by_cases h2 : stripRight (' ' :: r) = []
      · rw [if_pos h2]
        have h1 : stripRight ['(', P, ')'] = ['(', P, ')'] := by
          apply stripRight_eq_self
          intro c hc
          have : ')' = c := by simpa using hc
          rw [← this]
          decide
        rw [h1]
        refine ⟨[], ?_⟩
        rw [splitSpace_no_space _ (by
          intro hm
          simp only [List.mem_cons, List.not_mem_nil, or_false] at hm
          rcases hm with h | h | h
          · exact absurd h.symm (by decide)
          · exact hPns h.symm
          · exact absurd h.symm (by decide))]
      · rw [if_neg h2]
        rw [stripRight_cons ' ' r] at h2 ⊢
        by_cases h3 : stripRight r = []
        · rw [if_pos h3] at h2
          exact absurd (by simp [stripRight, stripLeft, isWSChar]) h2
        · rw [if_neg h3]
          refine ⟨splitSpace (stripRight r), ?_⟩
          rw [splitSpace_token_cons ['(', P, ')'] _ (by
            intro hm
            simp only [List.mem_cons, List.not_mem_nil, or_false] at hm
            rcases hm with h | h | h
            · exact absurd h (by decide)
            · exact absurd h hPns.symm
            · exact absurd h (by decide))]
  rw [hts]
  have := parseTokens_pri_of_head ['(', P, ')'] ts hpm
  simpa [priLetter] using this

/-- Witness for `parse_completed_line_keeps_priority`: `"x (A) buy milk"`. -/
theorem parse_completed_line_keeps_priority_witness :
    (parse_task ("x (A) buy milk".toList)).completed = true ∧
    (parse_task ("x (A) buy milk".toList)).priority = some ['A'] :=
  parse_completed_line_keeps_priority 'A' (' ' :: "buy milk".toList)
    (by decide) (by decide) (Or.inr rfl)

/-! ## Claim C2 -/

/-- **C2** (counterexample to the claim as stated): the task whose description
is `"2024-01-01 pay"` meets every condition the claim lists (no description
word starts with `+` or `@` or contains a colon, it is uncompleted with no
completion date, and it has no `"effort"` metadata key), yet
`parse(serialize(t))` turns the date-shaped first word into a creation date
and is not equal to `t`. -/
theorem round_trip_counterexample :
    (∀ w ∈ splitSpace ({ description := "2024-01-01 pay".toList : Task }).description,
      w.head? ≠ some '+' ∧ w.head? ≠ some '@' ∧ ':' ∉ w) ∧
    ({ description := "2024-01-01 pay".toList : Task }).completed = false ∧
    ({ description := "2024-01-01 pay".toList : Task }).completion_date = none ∧
    ({ description := "2024-01-01 pay".toList : Task }).metadata = [] ∧
    parse_task (Task.toLine { description := "2024-01-01 pay".toList }) ≠
      ({ description := "2024-01-01 pay".toList : Task }) := by
  refine ⟨by decide, rfl, rfl, rfl, by decide⟩

/-- **C2** (amended): `parse(serialize(t))` equals `t` in every field for
every well-formed task (`WF`): in addition to the claim's conditions, the
description's words must be nonempty, whitespace-free, and not themselves
date strings, priority markers, or the bare word `x`; project/context names,
metadata keys/values and the effort value must be whitespace-free with
names/keys nonempty, keys colon-free, not starting with `+`/`@` and distinct
from `effort`; the priority must be one letter A–Z; dates must be valid; and
a completed task with a creation date must also carry a completion date.
Sets and the metadata dict are held in canonical sorted order (their
representation up to Python set/dict extensional equality). -/
theorem parse_serialize_round (t : Task) (h : WF t) :
    parse_task (Task.toLine t) = t := by
  obtain ⟨hpri, hcc, hcr, hcdv, hcrv, hdsc, hpj, hpjn0, hcx, hcxn0, hmd, hmdk0, heff0⟩ := h
  have hpjn : ∀ p ∈ t.projects, p ≠ [] := by
    intro p hp
    have := hpjn0 p hp
    unfold nameOK at this
    simp only [Bool.and_eq_true] at this
    simpa using this.1
  have hcxn : ∀ c ∈ t.contexts, c ≠ [] := by
    intro c hc
    have := hcxn0 c hc
    unfold nameOK at this
    simp only [Bool.and_eq_true] at this
    simpa using this.1
  have hmdk : ∀ kv ∈ t.metadata, keyOK kv.1 = true := fun kv hkv => (hmdk0 kv hkv).1
  have heffn : ∀ e, t.effort = some e → e ≠ [] := by
    intro e he
    have := heff0 e he
    unfold nameOK at this
    simp only [Bool.and_eq_true] at this
    simpa using this.1
  have hposttok := postToks_tokOK t hpjn0 hcxn0 hmdk0 heff0
  have hpritok := priToks_tokOK t hpri
  have hcdtok := cdToks_tokOK t
  have hcrtok := crToks_tokOK t
  have hPT : ∀ mid : List PyStr, (∀ w ∈ mid, wordOK w = true ∨ w = []) →
      strip (joinSpace mid) = t.description →
      parseTokens t.completed
        (priToks t ++ (cdToks t ++ (crToks t ++ (mid ++ postToks t)))) = t :=
    fun mid hm hd =>
      parseTokens_eq t mid hpri hcc hcr hcdv hcrv hm hd hpj hpjn hcx hcxn hmd hmdk heffn
  rcases hdsc with hdnil | hdwords
  · -- empty description: the serialized parts contain one empty token
    have hline : Task.toLine t =
        joinSpace ((xToks t ++ (priToks t ++ (cdToks t ++ crToks t))) ++
          ([[]] ++ postToks t)) := by
      unfold Task.toLine Task.strParts
      rw [hdnil]
      simp [List.append_assoc]
    rw [hline]
    by_cases hA0 : (priToks t ++ (cdToks t ++ crToks t)) = []
    · obtain ⟨hp0, hc0, hr0⟩ : priToks t = [] ∧ cdToks t = [] ∧ crToks t = [] := by
        simpa [List.append_eq_nil] using hA0
      rw [hA0]
      by_cases hB0 : postToks t = []
      · -- no tokens at all besides the possible x marker
        rw [hB0]
        have hfin : parseTokens t.completed [[]] = t := by
          have := hPT [[]] (by intro w hw; right; simpa using hw)
            (by rw [hdnil]; rfl)
          rw [hp0, hc0, hr0, hB0] at this
          simpa using this
        cases hC : t.completed with
        | true =>
          have hx : xToks t = [['x']] := by simp [xToks, hC]
          rw [hx]
          have hl2 : joinSpace (([['x']] ++ []) ++ ([[]] ++ [])) = ['x', ' '] := rfl
          rw [hl2]
          have hpx : parse_task ['x', ' '] = parseTokens true (splitSpace (strip [])) :=
            parse_task_x []
          rw [hpx]
          have : splitSpace (strip ([] : PyStr)) = [[]] := rfl
          rw [this, ← hC]
          exact hfin
        | false =>
          have hx : xToks t = [] := by simp [xToks, hC]
          rw [hx]
          have hl2 : joinSpace (([] ++ []) ++ ([[]] ++ ([] : List PyStr))) = [] := rfl
          rw [hl2]
          have hpe : parse_task ([] : PyStr) = {} := rfl
          rw [hpe]
          -- the task is entirely default
          refine Task.ext' _ t (by simp [hC]) ?_ ?_ ?_ (by simp [hdnil]) ?_ ?_ ?_ ?_
          · cases hP : t.priority with
            | none => rfl
            | some p =>
              obtain ⟨c, rfl, _, _⟩ := prioOK_shape p (by rwa [hP] at hpri)
              have : priToks t = [['(', c, ')']] := by simp [priToks, hP]
              rw [this] at hp0
              simp at hp0
          · simp [hcc hC]
          · cases hcrd : t.creation_date with
            | none => rfl
            | some d =>
              have : crToks t = [serialize_date d] := by simp [crToks, hcrd]
              rw [this] at hr0
              simp at hr0
          · have : t.projects.map (fun p => '+' :: p) = [] := by
              have h1 := hB0
              unfold postToks at h1
              simp only [List.append_eq_nil] at h1
              exact h1.1.1.1
            simp only [List.map_eq_nil_iff] at this
            simp [this]
          · have : t.contexts.map (fun c => '@' :: c) = [] := by
              have h1 := hB0
              unfold postToks at h1
              simp only [List.append_eq_nil] at h1
              exact h1.1.1.2
            simp only [List.map_eq_nil_iff] at this
            simp [this]
          · have : t.metadata.map (fun kv => kv.1 ++ ':' :: kv.2) = [] := by
              have h1 := hB0
              unfold postToks at h1
              simp only [List.append_eq_nil] at h1
              exact h1.2
            simp only [List.map_eq_nil_iff] at this
            simp [this]
          · cases he : t.effort with
            | none => rfl
            | some e =>
              have hene : e ≠ [] := heffn e he
              have h1 := hB0
              unfold postToks at h1
              simp only [List.append_eq_nil] at h1
              have := h1.1.2
              rw [he] at this
              simp [hene] at this
      · -- only trailing tokens
        obtain ⟨b, B', hfB⟩ : ∃ b B', postToks t = b :: B' := by
          cases hPB : postToks t with
          | nil => exact absurd hPB hB0
          | cons b B' => exact ⟨b, B', rfl⟩
        rw [hfB]
        have hBtokOK : ∀ w ∈ (b :: B'), w ≠ [] ∧ wsFree w = true := by
          rw [← hfB]; exact hposttok
        have hBne : (b :: B' : List PyStr) ≠ [] := by simp
        have hjB : strip (joinSpace (b :: B')) = joinSpace (b :: B') :=
          strip_joinSpace_eq _ hBne hBtokOK
        have hsplitB : splitSpace (joinSpace (b :: B')) = b :: B' :=
          splitSpace_joinSpace _ hBne
            (fun w hw => wsFree_no_space w (hBtokOK w hw).2)
        have hfin : parseTokens t.completed (b :: B') = t := by
          have := hPT [] (by intro w hw; simp at hw) (by rw [hdnil]; rfl)
          rw [hp0, hc0, hr0, hfB] at this
          simpa using this
        have hl2 : joinSpace (([[]] ++ (b :: B'))) = ' ' :: joinSpace (b :: B') := by
          rw [joinSpace_append [[]] (b :: B') (by simp) (by simp)]
          rfl
        cases hC : t.completed with
        | true =>
          have hx : xToks t = [['x']] := by simp [xToks, hC]
          rw [hx]
          have hl3 : joinSpace (([['x']] ++ []) ++ ([[]] ++ (b :: B'))) =
              'x' :: ' ' :: joinSpace ([[]] ++ (b :: B')) := by
            rw [List.append_nil]
            rw [show ([['x']] ++ ([[]] ++ (b :: B'))) = (['x'] :: ([[]] ++ (b :: B'))) from rfl]
            rw [joinSpace_cons _ _ (by simp)]
            rfl
          rw [hl3, parse_task_x, hl2, strip_cons_space, hjB, hsplitB, ← hC]
          exact hfin
        | false =>
          have hx : xToks t = [] := by simp [xToks, hC]
          rw [hx]
          have hl3 : joinSpace (([] ++ []) ++ ([[]] ++ (b :: B'))) =
              ' ' :: joinSpace (b :: B') := by
            rw [show (([] ++ []) ++ ([[]] ++ (b :: B')) : List PyStr) = [[]] ++ (b :: B') from rfl]
            exact hl2
          rw [hl3]
          have hstr : strip (' ' :: joinSpace (b :: B')) = joinSpace (b :: B') := by
            rw [strip_cons_space, hjB]
          rw [parse_task_not_x _ (by rw [hstr]; exact joinSpace_ne_nil b B' (hBtokOK b (by simp)).1)
            (take2_ne_of_head ' ' _ (by decide)), hstr, hsplitB, ← hC]
          exact hfin
    · -- some tokens before the description slot
      obtain ⟨f, A', hfA⟩ : ∃ f A', (priToks t ++ (cdToks t ++ crToks t)) = f :: A' := by
        cases hPA : (priToks t ++ (cdToks t ++ crToks t)) with
        | nil => exact absurd hPA hA0
        | cons f A' => exact ⟨f, A', rfl⟩
      have hAtok : ∀ w ∈ (priToks t ++ (cdToks t ++ crToks t)),
          (w ≠ [] ∧ wsFree w = true) ∧ 2 ≤ w.length := by
        intro w hw
        rcases List.mem_append.mp hw with h1 | h2
        · exact hpritok w h1
        · rcases List.mem_append.mp h2 with h3 | h4
          · exact hcdtok w h3
          · exact hcrtok w h4
      have hAtok' : ∀ w ∈ (f :: A'), (w ≠ [] ∧ wsFree w = true) ∧ 2 ≤ w.length := by
        rw [← hfA]; exact hAtok
      have hAne : (f :: A' : List PyStr) ≠ [] := by simp
      have hjA : strip (joinSpace (f :: A')) = joinSpace (f :: A') :=
        strip_joinSpace_eq _ hAne (fun w hw => (hAtok' w hw).1)
      have hsplitA : splitSpace (joinSpace (f :: A')) = f :: A' :=
        splitSpace_joinSpace _ hAne
          (fun w hw => wsFree_no_space w (hAtok' w hw).1.2)
      rw [hfA]
      by_cases hB0 : postToks t = []
      · -- tokens then the empty description token at the end
        rw [hB0, List.append_nil]
        have hl2 : joinSpace ((xToks t ++ (f :: A')) ++ [[]]) =
            joinSpace (xToks t ++ (f :: A')) ++ [' '] := by
          rw [joinSpace_append _ [[]] (by simp) (by simp)]
          rfl
        have hfin : parseTokens t.completed (f :: A') = t := by
          have := hPT [] (by intro w hw; simp at hw) (by rw [hdnil]; rfl)
          rw [hB0] at this
          rw [← hfA]
          simpa using this
        cases hC : t.completed with
        | true =>
          have hx : xToks t = [['x']] := by simp [xToks, hC]
          rw [hx]
          have hl3 : joinSpace (([['x']] ++ (f :: A')) ++ [[]]) =
              'x' :: ' ' :: (joinSpace (f :: A') ++ [' ']) := by
            have h1 : (([['x']] ++ (f :: A')) ++ [[]] : List PyStr) =
                ['x'] :: ((f :: A') ++ [[]]) := by simp
            rw [h1, joinSpace_cons _ _ (by simp),
              joinSpace_append (f :: A') [[]] (by simp) (by simp)]
            rfl
          rw [hl3, parse_task_x, strip_append_space, hjA, hsplitA, ← hC]
          exact hfin
        | false =>
          have hx : xToks t = [] := by simp [xToks, hC]
          rw [hx]
          have hl3 : joinSpace (([] ++ (f :: A')) ++ [[]]) =
              joinSpace (f :: A') ++ [' '] := by
            rw [List.nil_append, joinSpace_append (f :: A') [[]] (by simp) (by simp)]
            rfl
          rw [hl3]
          rw [parse_task_not_x _ (by rw [strip_append_space, hjA]; exact joinSpace_ne_nil f A' (hAtok' f (by simp)).1.1)
            (joinSpace_take2_long f A' [' '] (hAtok' f (by simp)).2 (hAtok' f (by simp)).1.2),
            strip_append_space, hjA, hsplitA, ← hC]
          exact hfin
      · -- tokens, the empty description token, then trailing tokens
        obtain ⟨b, B', hfB⟩ : ∃ b B', postToks t = b :: B' := by
          cases hPB : postToks t with
          | nil => exact absurd hPB hB0
          | cons b B' => exact ⟨b, B', rfl⟩
        have hBtokOK : ∀ w ∈ (b :: B'), w ≠ [] ∧ wsFree w = true := by
          rw [← hfB]; exact hposttok
        have hBne : (b :: B' : List PyStr) ≠ [] := by simp
        have hjB : strip (joinSpace (b :: B')) = joinSpace (b :: B') :=
          strip_joinSpace_eq _ hBne hBtokOK
        have hjBne : joinSpace (b :: B') ≠ [] :=
          joinSpace_ne_nil b B' (hBtokOK b (by simp)).1
        rw [hfB]
        have hl2 : joinSpace ((xToks t ++ (f :: A')) ++ ([[]] ++ (b :: B'))) =
            joinSpace (xToks t ++ (f :: A')) ++ ' ' :: (' ' :: joinSpace (b :: B')) := by
          rw [joinSpace_append _ ([[]] ++ (b :: B')) (by simp) (by simp)]
          rw [joinSpace_append [[]] (b :: B') (by simp) (by simp)]
          rfl
        have hsplit_tail : splitSpace (joinSpace (f :: A') ++ ' ' :: (' ' :: joinSpace (b :: B'))) =
            (f :: A') ++ ([] :: (b :: B')) := by
          rw [splitSpace_joinSpace_append (f :: A') _ hAne
            (fun w hw => wsFree_no_space w (hAtok' w hw).1.2)]
          congr 1
          rw [show (' ' :: joinSpace (b :: B') : PyStr) = [] ++ ' ' :: joinSpace (b :: B') from rfl]
          rw [splitSpace_token_cons [] _ (by simp)]
          rw [splitSpace_joinSpace _ hBne (fun w hw => wsFree_no_space w (hBtokOK w hw).2)]
        have hstrip_tail : strip (joinSpace (f :: A') ++ ' ' :: (' ' :: joinSpace (b :: B'))) =
            joinSpace (f :: A') ++ ' ' :: (' ' :: joinSpace (b :: B')) := by
          apply strip_eq_self
          · intro c hc
            rw [List.head?_append] at hc
            have hhA : (joinSpace (f :: A')).head? = f.head? :=
              head?_joinSpace f A' (hAtok' f (by simp)).1.1
            rw [hhA] at hc
            cases hf0 : f.head? with
            | none =>
              have hfnil : f = [] := by
                cases f with
                | nil => rfl
                | cons a as => simp at hf0
              exact absurd hfnil (hAtok' f (by simp)).1.1
            | some c0 =>
              rw [hf0] at hc
              have hcc : some c0 = some c := hc
              have hc0c : c0 = c := by injection hcc
              rw [← hc0c]
              exact wsFree_head f (hAtok' f (by simp)).1.2 c0 hf0
          · intro c hc
            rw [List.getLast?_append] at hc
            have h4 : (' ' :: (' ' :: joinSpace (b :: B'))).getLast? =
                (joinSpace (b :: B')).getLast? := by
              rw [show (' ' :: (' ' :: joinSpace (b :: B')) : PyStr) =
                [' ', ' '] ++ joinSpace (b :: B') from rfl]
              rw [List.getLast?_append]
              cases hgl : (joinSpace (b :: B')).getLast? with
              | none =>
                rw [List.getLast?_eq_none_iff] at hgl
                exact absurd hgl hjBne
              | some c1 => rfl
            rw [h4] at hc
            cases hgl : (joinSpace (b :: B')).getLast? with
            | none =>
              rw [List.getLast?_eq_none_iff] at hgl
              exact absurd hgl hjBne
            | some c1 =>
              rw [hgl] at hc
              have hcc : some c1 = some c := hc
              have hc1c : c1 = c := by injection hcc
              rw [← hc1c]
              exact joinSpace_getLast_not_ws (b :: B') hBne hBtokOK c1 hgl
        have hfin : parseTokens t.completed ((f :: A') ++ ([] :: (b :: B'))) = t := by
          have := hPT [[]] (by intro w hw; right; simpa using hw) (by rw [hdnil]; rfl)
          rw [hfB] at this
          rw [← hfA]
          have hassoc : priToks t ++ (cdToks t ++ (crToks t ++ ([[]] ++ (b :: B')))) =
              (priToks t ++ (cdToks t ++ crToks t)) ++ ([] :: (b :: B')) := by
            simp [List.append_assoc]
          rw [hassoc] at this
          exact this
        cases hC : t.completed with
        | true =>
          have hx : xToks t = [['x']] := by simp [xToks, hC]
          rw [hx]
          have hl3 : joinSpace (([['x']] ++ (f :: A')) ++ ([[]] ++ (b :: B'))) =
              'x' :: ' ' :: (joinSpace (f :: A') ++ ' ' :: (' ' :: joinSpace (b :: B'))) := by
            have h1 : (([['x']] ++ (f :: A')) ++ ([[]] ++ (b :: B')) : List PyStr) =
                ['x'] :: ((f :: A') ++ ([[]] ++ (b :: B'))) := by simp
            rw [h1, joinSpace_cons _ _ (by simp),
              joinSpace_append (f :: A') ([[]] ++ (b :: B')) (by simp) (by simp),
              joinSpace_append [[]] (b :: B') (by simp) (by simp)]
            rfl
          rw [hl3, parse_task_x, hstrip_tail, hsplit_tail, ← hC]
          exact hfin
        | false =>
          have hx : xToks t = [] := by simp [xToks, hC]
          rw [hx]
          have hl3 : joinSpace (([] ++ (f :: A')) ++ ([[]] ++ (b :: B'))) =
              joinSpace (f :: A') ++ ' ' :: (' ' :: joinSpace (b :: B')) := by
            rw [List.nil_append,
              joinSpace_append (f :: A') ([[]] ++ (b :: B')) (by simp) (by simp),
              joinSpace_append [[]] (b :: B') (by simp) (by simp)]
            rfl
          rw [hl3]
          rw [parse_task_not_x _ (by rw [hstrip_tail]; intro he; simp at he)
            (by
              have := joinSpace_take2_long f A' (' ' :: (' ' :: joinSpace (b :: B')))
                (hAtok' f (by simp)).2 (hAtok' f (by simp)).1.2
              exact this),
            hstrip_tail, hsplit_tail, ← hC]
          exact hfin
  · -- nonempty description: its words are genuine tokens
    have hdne : t.description ≠ [] := by
      intro he
      have := hdwords [] (by rw [he]; simp [splitSpace])
      exact absurd this (by decide)
    have hmidtok : ∀ w ∈ splitSpace t.description, w ≠ [] ∧ wsFree w = true := by
      intro w hw
      have h1 := hdwords w hw
      unfold wordOK at h1
      simp only [Bool.and_eq_true] at h1
      exact ⟨by simpa using h1.1.1.1.1.1.1.1, h1.1.1.1.1.1.1.2⟩
    have hmidne : splitSpace t.description ≠ [] := splitSpace_ne_nil _
    have hjoin_mid : joinSpace (splitSpace t.description) = t.description :=
      joinSpace_splitSpace _
    have hdstrip : strip (joinSpace (splitSpace t.description)) = t.description := by
      rw [strip_joinSpace_eq _ hmidne hmidtok, hjoin_mid]
    have hTStok : ∀ w ∈ (priToks t ++ (cdToks t ++ (crToks t ++
        (splitSpace t.description ++ postToks t)))), w ≠ [] ∧ wsFree w = true := by
      intro w hw
      rcases List.mem_append.mp hw with h1 | h2
      · exact (hpritok w h1).1
      rcases List.mem_append.mp h2 with h3 | h4
      · exact (hcdtok w h3).1
      rcases List.mem_append.mp h4 with h5 | h6
      · exact (hcrtok w h5).1
      rcases List.mem_append.mp h6 with h7 | h8
      · exact hmidtok w h7
      · exact hposttok w h8
    have hTSne : (priToks t ++ (cdToks t ++ (crToks t ++
        (splitSpace t.description ++ postToks t)))) ≠ [] := by
      intro he
      simp only [List.append_eq_nil] at he
      exact hmidne he.2.2.2.1
    have hTSstrip : strip (joinSpace (priToks t ++ (cdToks t ++ (crToks t ++
        (splitSpace t.description ++ postToks t))))) =
        joinSpace (priToks t ++ (cdToks t ++ (crToks t ++
        (splitSpace t.description ++ postToks t)))) :=
      strip_joinSpace_eq _ hTSne hTStok
    have hTSsplit : splitSpace (joinSpace (priToks t ++ (cdToks t ++ (crToks t ++
        (splitSpace t.description ++ postToks t))))) =
        priToks t ++ (cdToks t ++ (crToks t ++
        (splitSpace t.description ++ postToks t))) :=
      splitSpace_joinSpace _ hTSne (fun w hw => wsFree_no_space w (hTStok w hw).2)
    have hline : Task.toLine t = joinSpace (xToks t ++ (priToks t ++ (cdToks t ++
        (crToks t ++ (splitSpace t.description ++ postToks t))))) := by
      have h2 := joinSpace_flatten (xToks t ++ (priToks t ++ (cdToks t ++ crToks t)))
        (postToks t) (splitSpace t.description) hmidne
      unfold Task.toLine Task.strParts
      calc joinSpace (xToks t ++ priToks t ++ cdToks t ++ crToks t ++ [t.description] ++ postToks t)
          = joinSpace ((xToks t ++ (priToks t ++ (cdToks t ++ crToks t))) ++
              ([joinSpace (splitSpace t.description)] ++ postToks t)) := by
            rw [hjoin_mid]; simp [List.append_assoc]
        _ = joinSpace ((xToks t ++ (priToks t ++ (cdToks t ++ crToks t))) ++
              (splitSpace t.description ++ postToks t)) := h2
        _ = joinSpace (xToks t ++ (priToks t ++ (cdToks t ++
              (crToks t ++ (splitSpace t.description ++ postToks t))))) := by
            simp [List.append_assoc]
    rw [hline]
    have hfin : parseTokens t.completed (priToks t ++ (cdToks t ++ (crToks t ++
        (splitSpace t.description ++ postToks t)))) = t :=
      hPT (splitSpace t.description) (fun w hw => Or.inl (hdwords w hw)) hdstrip
    cases hC : t.completed with
    | true =>
      have hx : xToks t = [['x']] := by simp [xToks, hC]
      rw [hx]
      rw [show ([['x']] ++ (priToks t ++ (cdToks t ++ (crToks t ++
        (splitSpace t.description ++ postToks t)))) : List PyStr) =
        ['x'] :: (priToks t ++ (cdToks t ++ (crToks t ++
        (splitSpace t.description ++ postToks t)))) from rfl]
      rw [joinSpace_cons _ _ hTSne]
      rw [show ((['x'] ++ ' ' :: joinSpace (priToks t ++ (cdToks t ++ (crToks t ++
        (splitSpace t.description ++ postToks t))))) : PyStr) =
        'x' :: ' ' :: joinSpace (priToks t ++ (cdToks t ++ (crToks t ++
        (splitSpace t.description ++ postToks t)))) from rfl]
      rw [parse_task_x, hTSstrip, hTSsplit, ← hC]
      exact hfin
    | false =>
      have hx : xToks t = [] := by simp [xToks, hC]
      rw [hx, List.nil_append]
      have htake2 : (joinSpace (priToks t ++ (cdToks t ++ (crToks t ++
          (splitSpace t.description ++ postToks t))))).take 2 ≠ ['x', ' '] := by
        by_cases hA0 : (priToks t ++ (cdToks t ++ crToks t)) = []
        · obtain ⟨hp0, hc0, hr0⟩ : priToks t = [] ∧ cdToks t = [] ∧ crToks t = [] := by
            simpa [List.append_eq_nil] using hA0
          rw [hp0, hc0, hr0]
          simp only [List.nil_append]
          cases hm : splitSpace t.description with
          | nil => exact absurd hm hmidne
          | cons w mid' =>
            have hw := hdwords w (by rw [hm]; exact List.mem_cons_self w mid')
            have := joinSpace_take2_word w (mid' ++ postToks t) [] hw
            simpa using this
        · obtain ⟨f, A', hfA⟩ : ∃ f A', (priToks t ++ (cdToks t ++ crToks t)) = f :: A' := by
            cases hPA : (priToks t ++ (cdToks t ++ crToks t)) with
            | nil => exact absurd hPA hA0
            | cons f A' => exact ⟨f, A', rfl⟩
          have hAtok : ∀ w ∈ (priToks t ++ (cdToks t ++ crToks t)),
              (w ≠ [] ∧ wsFree w = true) ∧ 2 ≤ w.length := by
            intro w hw
            rcases List.mem_append.mp hw with h1 | h2
            · exact hpritok w h1
            · rcases List.mem_append.mp h2 with h3 | h4
              · exact hcdtok w h3
              · exact hcrtok w h4
          have hf := hAtok f (by rw [hfA]; exact List.mem_cons_self f A')
          have hassoc : priToks t ++ (cdToks t ++ (crToks t ++
              (splitSpace t.description ++ postToks t))) =
              (priToks t ++ (cdToks t ++ crToks t)) ++
              (splitSpace t.description ++ postToks t) := by
            simp [List.append_assoc]
          rw [hassoc, hfA, List.cons_append]
          have := joinSpace_take2_long f (A' ++ (splitSpace t.description ++ postToks t))
            [] hf.2 hf.1.2
          simpa using this
      rw [parse_task_not_x _ (by
          rw [hTSstrip]
          cases hTS : (priToks t ++ (cdToks t ++ (crToks t ++
            (splitSpace t.description ++ postToks t)))) with
          | nil => exact absurd hTS hTSne
          | cons f2 rest2 =>
            exact joinSpace_ne_nil f2 rest2 (hTStok f2 (by rw [hTS]; exact List.mem_cons_self f2 rest2)).1)
        htake2, hTSstrip, hTSsplit, ← hC]
      exact hfin

/-- Witness for `parse_serialize_round`: a fully featured well-formed task
round-trips. -/
theorem parse_serialize_round_witness :
    WF { completed := false, priority := some ['B'],
         creation_date := some ⟨2024, 3, 5⟩,
         description := "pay rent".toList,
         projects := ["home".toList], contexts := ["phone".toList],
         metadata := [("due".toList, "2024-04-01".toList)],
         effort := some ['3'] } ∧
    parse_task (Task.toLine
        { completed := false, priority := some ['B'],
          creation_date := some ⟨2024, 3, 5⟩,
          description := "pay rent".toList,
          projects := ["home".toList], contexts := ["phone".toList],
          metadata := [("due".toList, "2024-04-01".toList)],
          effort := some ['3'] }) =
      { completed := false, priority := some ['B'],
        creation_date := some ⟨2024, 3, 5⟩,
        description := "pay rent".toList,
        projects := ["home".toList], contexts := ["phone".toList],
        metadata := [("due".toList, "2024-04-01".toList)],
        effort := some ['3'] } :=
  ⟨by decide, parse_serialize_round _ (by decide)⟩

end Ptodo
